import Mathlib

/-!
Verification of the `dots` dotfile manager against its specification.

Each section below is a shallow embedding of one component of the Go
source, translated definition-by-definition, followed (at the end of the
file) by theorems settling the specification claims.

Conventions used throughout:
  * Go strings handled at the CLI level are Lean `String`s; byte-level
    parsers (commit decoder, gitconfig parser) work on `List Nat`, one
    element per byte.
  * Go `uint` arithmetic is `Nat` with an explicit `% 2 ^ 64` where the
    source can wrap; bit operations use `Nat.land` / `Nat.lor`.
  * Effectful code (subprocess spawns, file-system access) is embedded by
    passing an explicit oracle describing the environment's responses and
    returning a trace of the actions the code performs.
-/

set_option maxRecDepth 10000

/-- Models `filepath.Join` on two already-clean path elements (no `.`, `..`
or duplicated separators, as produced by the callers embedded here): empty
parts are dropped, otherwise the parts are joined with one separator. -/
def goJoin (a b : String) : String :=
  if a = "" then b else if b = "" then a else a ++ "/" ++ b

/-- Split a character list at a separator (the `strings.Split` grouping;
splitting the empty list yields one empty field). -/
def splitChars (s : List Char) (sep : Char) : List (List Char) :=
  match s with
  | [] => [[]]
  | c :: rest =>
    let r := splitChars rest sep
    if c = sep then [] :: r else (c :: r.headD []) :: r.tail

/-- `bytes.ReplaceAll(s, pat, nil)`: remove every (non-overlapping,
left-to-right) occurrence of `pat`. The fuel is the input length; one unit
is spent per emitted or removed position. -/
def replChars (fuel : Nat) (s pat : List Char) : List Char :=
  match fuel, s with
  | 0, s => s
  | _ + 1, [] => []
  | fuel + 1, c :: rest =>
    if pat.isPrefixOf (c :: rest) ∧ pat ≠ [] then
      replChars fuel ((c :: rest).drop pat.length) pat
    else c :: replChars fuel rest pat

/-- Models `filepath.Base` for the clean slash-separated values that reach
it here: the last slash-separated component (the whole string when there is
no slash). -/
def goBase (s : String) : String :=
  String.mk ((splitChars s.data '/').getLastD s.data)

/-- Models `filepath.Rel base f` restricted to the way the source consumes
it: `some p` when `f` lies under `base` (so the relative path is `p`),
`none` when `Rel` errors or the result is an unrelated `..`-style path
(both cases are treated identically — skipped — by every caller). -/
def goRel (base f : String) : Option String :=
  if f = base then some "."
  else if base.isPrefixOf f && (f.drop base.length).startsWith "/" then
    some (f.drop (base.length + 1))
  else none

/-! ## Git process wrapper (`git/git.go`) -/

/-- The `Git` handle: `git.Git` restricted to the fields that shape the
argument list of a spawned command (`gitDir`, `workTree`, persistent
`args`); stream redirections carry no data and are omitted. -/
structure Git where
  gitDir : String
  workTree : String
  args : List String
deriving DecidableEq

/-- `(*Git).newCmd`: the argument vector of every spawned git command:
`--git-dir <dir> --work-tree <tree>` then the persistent args then the
operation args. -/
def Git.newCmd (g : Git) (args : List String) : List String :=
  ["--git-dir", g.gitDir, "--work-tree", g.workTree] ++ g.args ++ args

/-- `(*Git).Add`: validation error on an empty path list, otherwise the
argument vector of the spawned `add` command (`run(g.Cmd(...))`). The
`Except` value makes the control flow explicit: in the `.error` branch no
command is ever constructed. -/
def Git.add (g : Git) (paths : List String) : Except String (List String) :=
  if paths = [] then .error "no paths to add"
  else .ok (g.newCmd ("add" :: paths))

/-- `(*Git).Remove`: validation error on an empty file list, otherwise the
argument vector of the spawned `rm --cached` command. -/
def Git.remove (g : Git) (files : List String) : Except String (List String) :=
  if files = [] then .error "no files to remove"
  else .ok (g.newCmd (["rm", "--cached"] ++ files))

/-- `(*Git).CurrentBranch`, given the raw content of the `HEAD` file
(`none` models a failed open of `<git-dir>/HEAD`): strips one trailing
newline, and if the remainder starts with `ref: ` removes that marker and
returns the final path segment, otherwise returns the remainder verbatim.
(The source would panic indexing an empty file; that byte access is
represented by the empty-content error branch.) -/
def currentBranch (content : Option String) : Except String String :=
  match content with
  | none => .error "open HEAD: no such file or directory"
  | some b0 =>
    if b0 = "" then .error "index out of range"
    else
      let b := if b0.data.getLast? = some (Char.ofNat 10) then b0.data.dropLast
        else b0.data
      let refPat := "ref: ".data
      if refPat.isPrefixOf b then
        .ok (goBase (String.mk (replChars b.length b refPat)))
      else .ok (String.mk b)

/-! ## The `sync` command (`cli/commands.go`) -/

/-- One externally visible git operation performed by `sync`, in order. -/
inductive GitAction where
  | pull
  | readHead
  | push (remote branch : String)
deriving DecidableEq

/-- The environment `sync` runs against: whether `git remote` printed
anything, whether the `pull` subprocess failed, and the content of the
`HEAD` file read by `CurrentBranch`. -/
structure SyncWorld where
  hasRemote : Bool
  pullErr : Option String
  headContent : Option String

/-- `sync(g *git.Git)`: fails outright with no git subprocess when there
is no remote; otherwise runs `pull` (a failure only appends a warning),
reads the current branch from `HEAD`, and pushes that branch to `origin`.
Returns the ordered action trace, the warnings printed, and the result. -/
def sync (w : SyncWorld) : List GitAction × List String × Except String Unit :=
  if !w.hasRemote then ([], [], .error "repo does not have a remote repo")
  else
    let warnings := match w.pullErr with
      | some e => ["Warning: " ++ e]
      | none => []
    match currentBranch w.headContent with
    | .error e => ([.pull, .readHead], warnings, .error e)
    | .ok b => ([.pull, .readHead, .push "origin" b], warnings, .ok ())

/-! ## Index entry on-disk length (`git/index.go`) -/

/-- `cacheEntryDiskLength`: the number of on-disk bytes one index entry
occupies. `dataOffset = 40` is `unsafe.Offsetof(indexOnDiskCacheEntry.data)`
(ten 4-byte stat fields), the hash size is 20 (SHA-1), `nflags` is 2 when
the `CE_EXTENDED` bit `0x4000` is set and 1 otherwise, and the Go
expression is `(dataOffset + (hashSize + nflags*2 + nameLen) + 8) & ^uint(7)`
over 64-bit unsigned arithmetic. -/
def cacheEntryDiskLength (flags nameLen : Nat) : Nat :=
  let nflags : Nat := if flags &&& 0x4000 ≠ 0 then 2 else 1
  ((40 + (20 + nflags * 2 + nameLen) + 8) % 2 ^ 64) &&& 0xFFFFFFFFFFFFFFF8

/-- The unpadded length of an entry as the spec describes it: fixed
metadata offset plus hash size plus one or two 2-byte flag words plus the
name length. Stated separately so the alignment claims can be phrased as
the spec phrases them and compared with `cacheEntryDiskLength`. -/
def cdlUnpadded (flags nameLen : Nat) : Nat :=
  40 + 20 + (if flags &&& 0x4000 ≠ 0 then 2 else 1) * 2 + nameLen

/-! ## Index local diff (`git/index.go`, `indexDiff`) -/

/-- `indexCacheTime` (`statinfo.h` layout): seconds and nanoseconds. -/
structure CacheTime where
  sec : Nat
  nsec : Nat
deriving DecidableEq

/-- `(*indexCacheTime).Time()` is `time.Unix(sec, nsec)`, which normalizes
the nanosecond part into seconds; comparisons via `time.Time.Equal` compare
the normalized pair. -/
def CacheTime.unix (t : CacheTime) : Nat × Nat :=
  (t.sec + t.nsec / 1000000000, t.nsec % 1000000000)

/-- `indexCacheEntry` restricted to the fields `indexDiff` reads: the stat
data, mode, object id and name. -/
structure IndexCacheEntry where
  ctime : CacheTime
  mtime : CacheTime
  dev : Nat
  ino : Nat
  uid : Nat
  gid : Nat
  size : Nat
  mode : Nat
  oid : List Nat
  name : String
deriving DecidableEq

/-- The `syscall.Stat_t` fields `indexDiff` consults in its tie-break. -/
structure StatSys where
  dev : Nat
  ino : Nat
  uid : Nat
  gid : Nat
deriving DecidableEq

/-- The result of `os.Lstat` on one working-tree path: modify time
(normalized seconds/nanoseconds, as compared by `time.Time.Equal`), size,
the full `fs.FileMode` bits, and the optional `syscall.Stat_t` (absent on
platforms where `info.Sys()` is not a `*syscall.Stat_t`). -/
structure StatInfo where
  mtime : Nat × Nat
  size : Nat
  mode : Nat
  sys : Option StatSys
deriving DecidableEq

/-- Outcome of `os.Lstat`: the file exists with the given info, does not
exist (`os.IsNotExist`), or fails with another error. -/
inductive StatResult where
  | info (i : StatInfo)
  | notExist
  | errOther (e : String)

/-- `ModType` values used by `indexDiff` (`git/git.go`): byte `'D'` for a
deletion, `'M'` for a content/mode change; `0` is the zero value of an
untouched `ModType` field. -/
def ModDelete : Nat := 68

/-- `ModType` byte `'M'` (content or mode change). -/
def ModChanged : Nat := 77

/-- `ObjModification`: a mode plus a hex hash string. -/
structure ObjModification where
  Mode : Nat := 0
  Hash : String := ""
deriving DecidableEq

/-- `ModifiedFile`: name, modification kind byte, source and destination
mode/hash pairs. -/
structure ModifiedFile where
  Name : String
  typ : Nat := 0
  Src : ObjModification := {}
  Dst : ObjModification := {}
deriving DecidableEq

/-- One hex digit character code (lower case), as produced by
`hex.EncodeToString`. -/
def hexDigitChar (n : Nat) : Char :=
  if n < 10 then Char.ofNat (48 + n) else Char.ofNat (87 + n)

/-- `hex.EncodeToString` on a byte list. -/
def hexEncodeBytes (bs : List Nat) : String :=
  String.mk (bs.flatMap fun b => [hexDigitChar (b / 16 % 16), hexDigitChar (b % 16)])

/-- The body of `indexDiff`'s per-entry loop for one entry, given the
`os.Lstat` answer for `filepath.Join(workingTree, entry.name)`:
`none` means the entry is unchanged and skipped (`continue`), `some (inl e)`
aborts the whole diff with error `e`, and `some (inr mod)` appends a
modification record. Field for field this follows `git/index.go:42-96`,
including the destination-mode normalization after the `changed` branches. -/
def indexDiffEntry (entry : IndexCacheEntry) (st : StatResult) :
    Option (String ⊕ ModifiedFile) :=
  let base : ModifiedFile :=
    { Name := entry.name
      Src := { Mode := entry.mode, Hash := hexEncodeBytes entry.oid } }
  match st with
  | .notExist =>
      -- `goto next` with Type = ModDelete and a 40-NUL destination hash
      some (.inr { base with
        typ := ModDelete
        Dst := { Mode := 0, Hash := String.mk (List.replicate 40 (Char.ofNat 0)) } })
  | .errOther e => some (.inl e)
  | .info i =>
      let changedCoarse : Bool :=
        i.mtime ≠ entry.mtime.unix ∨ i.size ≠ entry.size ∨
          i.mode &&& 0o777 ≠ entry.mode &&& 0o777
      let changed : Bool :=
        if changedCoarse then true
        else match i.sys with
          | some s =>
              s.dev ≠ entry.dev ∨ s.uid ≠ entry.uid ∨ s.gid ≠ entry.gid ∨
                s.ino ≠ entry.ino
          | none => false
      if changed then
        -- mod.Dst.Mode = int(info.Mode()); then the executable-bit switch
        let m0 := i.mode
        let m1 : Nat := if m0 &&& 0o100 ≠ 0 then 0o644 else 0o755
        some (.inr { base with
          typ := ModChanged
          Dst := { Mode := m1 ||| 0o100000, Hash := "" } })
      else none

/-- `(*index).indexDiff`: fold `indexDiffEntry` over the entries, with
`stat` answering the `os.Lstat` calls; a non-not-exist stat error aborts. -/
def indexDiff (entries : List IndexCacheEntry) (stat : String → StatResult)
    (workingTree : String) : Except String (List ModifiedFile) :=
  match entries with
  | [] => .ok []
  | e :: rest =>
    match indexDiffEntry e (stat (goJoin workingTree e.name)) with
    | some (.inl err) => .error err
    | some (.inr m) => (indexDiff rest stat workingTree).map (m :: ·)
    | none => indexDiff rest stat workingTree

/-! ## `getUpdated` (`cli/cli.go`, the update command's path collection) -/

/-- `dotfiles.ReadMeName`. Modelled from the spec: the constant lives in a
package file not present under the source tree; the spec fixes the managed
README file name as `README.md`. -/
def ReadMeName : String := "README.md"

/-- `remove(index, arr)` (`cli/util.go`): swap-remove — overwrite the
index with the last element and truncate by one. -/
def swapRemove (i : Nat) (arr : List String) : List String :=
  (arr.set i (arr.getLastD "")).dropLast

/-- `removeReadme(base, files)`: drop the first file whose path relative to
`base` equals the managed README name (errors from `filepath.Rel` skip the
candidate). -/
def removeReadme (base : String) (files : List String) : List String :=
  match files.findIdx? (fun f => goRel base f = some ReadMeName) with
  | some i => swapRemove i files
  | none => files

/-- `getUpdated(g, opts, updated)`: resolve any explicitly given paths
against the work tree, then append every name reported by
`g.Modifications()` (also resolved against the work tree), then drop the
managed README when one is stored. `modNames` are the `Name` fields of the
modification records of a successful `Modifications()` call; `root` is
`opts.Root`. (The `len(updated) > 0` guard only skips an empty loop, so the
map is unconditional here.) -/
def getUpdated (workTree : String) (updated : List String)
    (modNames : List String) (hasReadme : Bool) (root : String) : List String :=
  let u := updated.map (fun f => goJoin workTree f)
  let u := u ++ modNames.map (fun n => goJoin workTree n)
  if hasReadme then removeReadme root u else u

/-! ## Commit object decoder (`git` package, `parseCommit`) -/

/-- Bytes of an ASCII string, for building byte-level test inputs. -/
def strBytes (s : String) : List Nat :=
  s.data.map Char.toNat

/-- A byte list rendered back as a string (`string(b)` on ASCII data). -/
def bytesToString (bs : List Nat) : String :=
  String.mk (bs.map Char.ofNat)

/-- `bufio.ReadBytes('\n')`: the bytes up to and including the first
newline plus the rest, or `none` when the stream ends first (in which case
`parseCommit` propagates the read error). -/
def readBytesNewline (bs : List Nat) : Option (List Nat × List Nat) :=
  match bs.findIdx? (· = 10) with
  | some i => some (bs.take (i + 1), bs.drop (i + 1))
  | none => none

/-- `bytes.SplitN(line, []byte{' '}, 2)`: at most two fields, split at the
first space. -/
def splitN2 (line : List Nat) : List (List Nat) :=
  match line.findIdx? (· = 32) with
  | some i => [line.take i, line.drop (i + 1)]
  | none => [line]

/-- `bytes.LastIndexByte`. -/
def lastIndexByte (bs : List Nat) (c : Nat) : Option Nat :=
  match (bs.reverse.findIdx? (· = c)) with
  | some j => some (bs.length - 1 - j)
  | none => none

/-- Value of one hex digit byte, or `none` for a non-hex byte
(`encoding/hex.fromHexChar`). -/
def hexDigitVal (c : Nat) : Option Nat :=
  if 48 ≤ c ∧ c ≤ 57 then some (c - 48)
  else if 97 ≤ c ∧ c ≤ 102 then some (c - 87)
  else if 65 ≤ c ∧ c ≤ 70 then some (c - 55)
  else none

/-- `hex.Decode` viewed as a pure pair-wise decode: `none` on an invalid
byte or odd length (both are errors in the source, which its caller
`parseCommit` returns immediately). -/
def hexPairs (src : List Nat) : Option (List Nat) :=
  match src with
  | [] => some []
  | [_] => none
  | a :: b :: rest =>
    match hexDigitVal a, hexDigitVal b, hexPairs rest with
    | some x, some y, some tail => some ((x * 16 + y) :: tail)
    | _, _, _ => none

/-- `hex.Decode(dst, src)` writes the decoded bytes over the front of the
fixed-size destination array, leaving the remaining bytes in place. -/
def overwriteInto (dst src : List Nat) : List Nat :=
  src ++ dst.drop src.length

/-- `strconv.ParseInt(s, 10, 64)` without the 64-bit range check (never hit
by the inputs considered here): an optional sign followed by at least one
decimal digit. -/
def goParseInt (bs : List Nat) : Except String Int :=
  let (sign, digits) : Int × List Nat :=
    match bs with
    | 43 :: rest => (1, rest)
    | 45 :: rest => (-1, rest)
    | _ => (1, bs)
  if digits = [] ∨ ¬ digits.all (fun c => 48 ≤ c ∧ c ≤ 57) then
    .error "invalid syntax"
  else
    .ok (sign * (digits.foldl (fun acc c => acc * 10 + (c - 48)) 0 : Nat))

/-- `parseTimeOffset`: a `±HHMM` timezone token converted to an offset in
seconds. The digit bytes go through Go's wrapping byte subtraction
`b - '0'` (mod 256) before widening to `int`. -/
def parseTimeOffset (b : List Nat) : Except String Int :=
  if b.length < 5 then .error "invalid timezone offset"
  else
    let sign : Int := if b.getD 0 0 = 45 then -1 else 1
    if b.getD 0 0 ≠ 45 ∧ b.getD 0 0 ≠ 43 then .error "invalid timezone offset"
    else
      let d : Nat → Nat := fun i => (b.getD i 0 + 208) % 256
      let h : Nat := d 1 * 10 + d 2
      let s : Nat := d 3 * 10 + d 4
      .ok (sign * ((h * 60 + s) * 60))

/-- `parseCommitAuthor`: split `<name> <unix-seconds> <±HHMM>` at its last
two spaces; returns the name substring (everything up to and including the
space before the seconds), the seconds, and the zone offset in seconds. -/
def parseCommitAuthor (line : List Nat) : Except String (String × Int × Int) := do
  match lastIndexByte line 32 with
  | none => .error "invalid commit author timestamp"
  | some locix =>
    let tz ← parseTimeOffset (line.drop (locix + 1))
    match lastIndexByte (line.take locix) 32 with
    | none => .error "invalid commit author timestamp"
    | some tsix0 =>
      let tsix := tsix0 + 1
      let secs ← goParseInt ((line.take locix).drop tsix)
      .ok (bytesToString (line.take tsix), secs, tz)

/-- The decoded `Commit` record. `Tree`/`Parent` are the 20-byte hash
arrays (zero-initialized); author/committer timestamps are kept as
(unix-seconds, zone-offset-seconds) pairs. -/
structure Commit where
  Tree : List Nat := List.replicate 20 0
  Parent : List Nat := List.replicate 20 0
  Author : String := ""
  AuthorTime : Int × Int := (0, 0)
  Commiter : String := ""
  CommiterTime : Int × Int := (0, 0)
  Message : String := ""
deriving DecidableEq

/-- The keyword dispatch of one `parseCommit` header line: `tree`/`parent`
hex-decode over the corresponding hash array, `author`/`committer` delegate
to `parseCommitAuthor`, anything else is skipped. -/
def commitHeaderStep (kw : String) (arg : List Nat) (c : Commit) :
    Except String Commit :=
  if kw = "tree" then
    match hexPairs arg with
    | some d => .ok { c with Tree := overwriteInto c.Tree d }
    | none => .error "invalid hex"
  else if kw = "parent" then
    match hexPairs arg with
    | some d => .ok { c with Parent := overwriteInto c.Parent d }
    | none => .error "invalid hex"
  else if kw = "author" then
    (parseCommitAuthor arg).map fun (a, s, z) =>
      { c with Author := a, AuthorTime := (s, z) }
  else if kw = "committer" then
    (parseCommitAuthor arg).map fun (a, s, z) =>
      { c with Commiter := a, CommiterTime := (s, z) }
  else .ok c

/-- The newline trim applied to each line read by `parseCommit`
(`if line[len(line)-1] == '\n' { line = line[:len(line)-1] }`). -/
def lineTrim (line0 : List Nat) : List Nat :=
  if line0.getLast? = some 10 then line0.dropLast else line0

/-- The header loop of `parseCommit`: read newline-terminated lines,
splitting each at the first space; a blank line exits the loop with the
remaining bytes (the message); other lines go through `commitHeaderStep`.
`fuel` bounds the iteration count (each iteration consumes at least one
byte, so any fuel above the input length is equivalent). -/
def parseCommitLoop (fuel : Nat) (c : Commit) (bs : List Nat) :
    Except String (Commit × List Nat) :=
  match fuel with
  | 0 => .error "out of fuel"
  | fuel + 1 =>
    match readBytesNewline bs with
    | none => .error "EOF"
    | some (line0, rest) =>
      let parts := splitN2 (lineTrim line0)
      if parts.length = 1 ∧ parts.headD [] = [] then .ok (c, rest)
      else
        match commitHeaderStep (bytesToString (parts.headD [])) (parts.getD 1 []) c with
        | .error e => .error e
        | .ok c2 => parseCommitLoop fuel c2 rest

/-- `bytes.TrimRight(all, "\n")` on a byte list. -/
def trimRightNewlines (bs : List Nat) : List Nat :=
  (bs.reverse.dropWhile (· = 10)).reverse

/-- `parseCommit`: run the header loop on a fresh record, then the bytes
after the blank line, trailing newlines trimmed, become the message. -/
def parseCommit (bs : List Nat) : Except String Commit :=
  (parseCommitLoop (bs.length + 1) {} bs).map fun (c, rest) =>
    { c with Message := bytesToString (trimRightNewlines rest) }

/-! ## The `install` command's archive extraction (`cli/commands.go`) -/

/-- Tar entry kinds distinguished by `install`'s switch; `other` covers
type flags with no case (silently skipped). -/
inductive TarType where
  | dir
  | reg
  | symlink
  | hardlink
  | block
  | fifo
  | other
deriving DecidableEq

/-- One archive entry: type flag, name, and (for links) the link target. -/
structure TarEntry where
  typeflag : TarType
  name : String
  linkname : String
deriving DecidableEq

/-- Result of the `os.MkdirAll` call for a directory entry. -/
inductive MkdirRes where
  | ok
  | alreadyExists
  | err (e : String)

/-- The environment `install` runs against: the option record's root and
config directory, plus oracles for the file-system outcomes and the
interactive overwrite prompt. -/
structure InstallEnv where
  root : String
  configDir : String
  existsAndIsNotDir : String → Bool
  promptYes : String → Bool
  mkdirOutcome : String → MkdirRes
  writeOutcome : String → Option String
  linkOutcome : Bool → String → String → Option String

/-- One observable file-system mutation performed by `install`. -/
inductive FsEvent where
  | mkdir (p : String)
  | write (p : String)
  | mklink (sym : Bool) (src dst : String)
deriving DecidableEq

/-- A queued `link` record (`sym`, destination path `src`, target `dst`),
as pushed onto the `container/list` queue. -/
abbrev LinkRec := Bool × String × String

/-- The destination path of one archive entry: joined under the install
destination, except that a path equal to the managed README name relative
to the option record's root is redirected into the config directory. -/
def entryDestPath (env : InstallEnv) (dest : String) (e : TarEntry) : String :=
  let p0 := goJoin dest e.name
  if goRel env.root p0 = some ReadMeName then goJoin env.configDir ReadMeName
  else p0

/-- The link records of an entry list, in archive order, as they would be
queued by the loop. -/
def entryLinks (env : InstallEnv) (dest : String) (es : List TarEntry) :
    List LinkRec :=
  es.filterMap fun e =>
    match e.typeflag with
    | .symlink => some (true, entryDestPath env dest e, e.linkname)
    | .hardlink => some (false, entryDestPath env dest e, e.linkname)
    | _ => none

/-- The archive-entry loop of `install`: for each entry compute the
destination path (redirecting a tree-root `README.md` into the config
directory), honor the overwrite prompt, then write directories and regular
files immediately while pushing symlink/hardlink records onto the queue in
archive order; block and FIFO entries abort with an error, as does any
file-system failure. Returns the events performed, the final link queue,
and the error if the loop aborted before end-of-archive. -/
def installLoop (env : InstallEnv) (yes : Bool) (dest : String) :
    List TarEntry → List FsEvent × List LinkRec × Option String
  | [] => ([], [], none)
  | e :: rest =>
    let p := entryDestPath env dest e
    if ¬ yes ∧ env.existsAndIsNotDir p ∧ ¬ env.promptYes p then
      installLoop env yes dest rest
    else
      match e.typeflag with
      | .dir =>
        match env.mkdirOutcome p with
        | .ok =>
          let (evs, q, r) := installLoop env yes dest rest
          (.mkdir p :: evs, q, r)
        | .alreadyExists => installLoop env yes dest rest
        | .err m => ([], [], some m)
      | .reg =>
        match env.writeOutcome p with
        | none =>
          let (evs, q, r) := installLoop env yes dest rest
          (.write p :: evs, q, r)
        | some m => ([], [], some m)
      | .symlink =>
        let (evs, q, r) := installLoop env yes dest rest
        (evs, (true, p, e.linkname) :: q, r)
      | .hardlink =>
        let (evs, q, r) := installLoop env yes dest rest
        (evs, (false, p, e.linkname) :: q, r)
      | .block => ([], [], some "cannot handle file type 'block'")
      | .fifo => ([], [], some "cannot handle file type 'fifo'")
      | .other => installLoop env yes dest rest

/-- The replay phase after `finish:`: pop the queue front to back, creating
each queued link; a failed link keeps only the first error and continues. -/
def replayLinks (env : InstallEnv) : List LinkRec → List FsEvent × Option String
  | [] => ([], none)
  | (sym, src, dst) :: rest =>
    match env.linkOutcome sym src dst with
    | none =>
      let (evs, r) := replayLinks env rest
      (.mklink sym src dst :: evs, r)
    | some e =>
      let (evs, _) := replayLinks env rest
      (evs, some e)

/-- `install`: run the archive loop; only once it reaches end-of-input is
the link queue replayed (a loop error returns immediately, replaying
nothing). Returns the ordered event trace and the error, if any. -/
def install (env : InstallEnv) (yes : Bool) (dest : String)
    (entries : List TarEntry) : List FsEvent × Option String :=
  let (evs, q, r) := installLoop env yes dest entries
  match r with
  | some e => (evs, some e)
  | none =>
    let (levs, lr) := replayLinks env q
    (evs ++ levs, lr)

/-! ## Path tree (`tree/tree.go`) -/

/-- `NodeType`: leaf vs. directory node. -/
inductive PTType where
  | leaf
  | dir
deriving DecidableEq

/-- `tree.Node`. The Go `children` field is a `map[string]*Node` keyed by
each child's own `Name`; it is embedded as the list of children, looked up
and replaced by name (insertion order standing in for the map's key set).
`path` is the breadcrumb of ancestor names recorded at creation time. -/
inductive PTNode where
  | mk (typ : PTType) (name : String) (children : List PTNode) (path : List String)

/-- The node's discriminator. -/
def PTNode.typ : PTNode → PTType
  | .mk t _ _ _ => t

/-- The node's name. -/
def PTNode.name : PTNode → String
  | .mk _ n _ _ => n

/-- The node's children. -/
def PTNode.children : PTNode → List PTNode
  | .mk _ _ cs _ => cs

/-- The node's recorded ancestor breadcrumb. -/
def PTNode.path : PTNode → List String
  | .mk _ _ _ p => p

/-- Map-style keyed insertion into the children list: replace the first
child with the same name, else append (`n.children[child.Name] = child`). -/
def insertChildList (cs : List PTNode) (c : PTNode) : List PTNode :=
  match cs with
  | [] => [c]
  | x :: rest =>
    if x.name = c.name then c :: rest else x :: insertChildList rest c

/-- `(*Node).insertChild`. -/
def PTNode.insertChild : PTNode → PTNode → PTNode
  | .mk t n cs p, c => .mk t n (insertChildList cs c) p

/-- Keyed lookup in the children map. -/
def lookupChild (cs : List PTNode) (k : String) : Option PTNode :=
  cs.find? (fun c => c.name = k)

/-- `createNode(parent, name, tp)`: a fresh childless node whose breadcrumb
is the parent's breadcrumb extended by the parent's name. -/
def createNode (parent : PTNode) (name : String) (tp : PTType) : PTNode :=
  .mk tp name [] (parent.path ++ [parent.name])

/-- `expand(parts, tree)`: when one component remains, insert it as a leaf
(replacing any existing child of that name); then walk into (or create as a
directory node) the child named by the head component and recurse on the
tail. Go mutates the child through the pointer held in the parent's map;
here the recursed-into child is re-inserted under its (unchanged) name. -/
def expand (parts : List String) (t : PTNode) : PTNode :=
  match parts with
  | [] => t
  | prt :: rest =>
    let t1 := if rest = [] then t.insertChild (createNode t prt .leaf) else t
    match lookupChild t1.children prt with
    | some child => t1.insertChild (expand rest child)
    | none =>
      let child := createNode t1 prt .dir
      let t2 := t1.insertChild child
      t2.insertChild (expand rest child)

/-- `fileSplit`: `strings.FieldsFunc` on the path separator (empty fields
dropped). -/
def fileSplit (s : String) : List String :=
  ((splitChars s.data '/').map String.mk).filter (· ≠ "")

/-- `(*Node).addPath`. -/
def PTNode.addPath (t : PTNode) (p : String) : PTNode :=
  expand (fileSplit p) t

/-- `(*Node).addPaths` / `New`: fold the paths into a fresh root directory
node named `/`. -/
def NewTree (files : List String) : PTNode :=
  files.foldl PTNode.addPath (.mk .dir "/" [] [])

/-- Walk the tree along a component list (keyed child lookup). -/
def lookupPath (t : PTNode) : List String → Option PTNode
  | [] => some t
  | prt :: rest =>
    match lookupChild t.children prt with
    | some c => lookupPath c rest
    | none => none

/-- Structural well-formedness of a tree as built by `New`/`Add`: every
child's recorded breadcrumb is its parent's breadcrumb extended by the
parent's name. -/
def PTWF : PTNode → Prop
  | .mk _ nm cs ph => ∀ c ∈ cs, c.path = ph ++ [nm] ∧ PTWF c

/-! ## Levenshtein ranking (`cli/cli.go`) -/

/-- The dynamic-programming table of `levenshtein(s, t)` as its defining
recurrence: `d[i][0] = i`, `d[0][j] = j`, and `d[i][j]` is `d[i-1][j-1]`
when the two bytes match, else one plus the minimum of `d[i-1][j]`,
`d[i][j-1]`, `d[i-1][j-1]` (the loop fills the table with exactly these
equations in an order that makes every right-hand side available). `fuel`
bounds the recursion depth; `i + j` suffices since every step lowers it. -/
def levD (s t : List Nat) : Nat → Nat → Nat → Nat
  | 0, _, _ => 0
  | _ + 1, i, 0 => i
  | _ + 1, 0, j => j
  | fuel + 1, i + 1, j + 1 =>
    if s.getD i 0 = t.getD j 0 then levD s t fuel i j
    else
      Nat.min (Nat.min (levD s t fuel i (j + 1)) (levD s t fuel (i + 1) j))
        (levD s t fuel i j) + 1

/-- `levenshtein(s, t)`: the corner `d[m][n]` of the table (named
`levenshteinDist` here only because the root name is taken by the
library). -/
def levenshteinDist (s t : List Nat) : Nat :=
  levD s t (s.length + t.length + 1) s.length t.length

/-- `rankedFile`: a file name (bytes) plus its edit distance to the term. -/
structure RankedFile where
  Name : List Nat
  Rank : Nat
deriving DecidableEq

/-- `NewRankedFiles(term, files)`: rank every file by edit distance to the
term, then sort by `Less(i, j) = rf[i].Rank < rf[j].Rank`. `sort.Sort`
guarantees exactly that the result is ordered by that comparator; it is
embedded as a merge sort over the reflexive closure `Rank ≤ Rank` of the
comparator, which sorts by the same ordering. -/
def NewRankedFiles (term : List Nat) (files : List (List Nat)) : List RankedFile :=
  (files.map fun f => { Name := f, Rank := levenshteinDist term f }).mergeSort
    (fun a b => a.Rank ≤ b.Rank)

/-! ## gitconfig parser (`git/gitconfig/gitconfig.go`) -/

/-- `configParser`: the unread bytes, the line counter, and the EOF flag. -/
structure CP where
  bytes : List Nat
  linenr : Nat
  eof : Bool
deriving DecidableEq

/-- `(*configParser).nextChar`: at end of input set `eof` and return a
newline; otherwise consume one byte, folding a `\r\n` pair into one `\n`
and counting newlines. (The second `len == 0` check in the source is
unreachable — after the CRLF fold at least one byte remains — and is
therefore absent here.) -/
def nextChar (cf : CP) : Nat × CP :=
  match cf.bytes with
  | [] => (10, { cf with eof := true })
  | c0 :: rest0 =>
    let (c, bs) :=
      if c0 = 13 ∧ rest0.headD 0 = 10 ∧ rest0 ≠ [] then (10, rest0)
      else (c0, c0 :: rest0)
    let ln := if c = 10 then cf.linenr + 1 else cf.linenr
    (c, { bytes := bs.tail, linenr := ln, eof := cf.eof })

/-- `isspace`. -/
def gcIsSpace (c : Nat) : Prop :=
  c = 9 ∨ c = 32 ∨ c = 10 ∨ c = 11 ∨ c = 12 ∨ c = 13

instance (c : Nat) : Decidable (gcIsSpace c) := by
  unfold gcIsSpace; infer_instance

/-- `isalpha`. -/
def gcIsAlpha (c : Nat) : Prop :=
  (65 ≤ c ∧ c ≤ 90) ∨ (97 ≤ c ∧ c ≤ 122)

instance (c : Nat) : Decidable (gcIsAlpha c) := by
  unfold gcIsAlpha; infer_instance

/-- `iskeychar`: letters, digits, and hyphen. -/
def gcIsKeyChar (c : Nat) : Prop :=
  gcIsAlpha c ∨ (48 ≤ c ∧ c ≤ 57) ∨ c = 45

instance (c : Nat) : Decidable (gcIsKeyChar c) := by
  unfold gcIsKeyChar; infer_instance

/-- `lower`: ASCII case folding by setting bit `0x20`. -/
def gcLower (c : Nat) : Nat := c ||| 0x20

/-- The parser's error values (`ErrPartialBOM`, `ErrInvalidKeyChar`, …);
`outOfFuel` is the bookkeeping value returned when a loop's fuel bound is
exhausted, which the wrappers' fuel choices make unreachable. -/
inductive GErr where
  | partialBOM
  | invalidKeyChar
  | invalidSectionChar
  | unexpectedEOF
  | sectionNewLine
  | missingStartQuote
  | missingClosingBracket
  | unfinishedQuote
  | invalidEscape
  | outOfFuel
deriving DecidableEq

/-- `getExtendedSectionKey`'s quoted-subsection reader, second loop: read
until the closing quote, folding recognized escapes; a newline fails. -/
def getExtQuoted (fuel : Nat) (st : CP) (ext : List Nat) :
    Except GErr (List Nat × CP) :=
  match fuel with
  | 0 => .error .outOfFuel
  | fuel + 1 =>
    let (c, st1) := nextChar st
    if c = 10 then .error .sectionNewLine
    else if c = 34 then
      let (c2, st2) := nextChar st1
      if c2 = 93 then .ok (ext, st2) else .error .missingClosingBracket
    else if c = 92 then
      let (c2, st2) := nextChar st1
      if c2 = 10 then .error .sectionNewLine
      else getExtQuoted fuel st2 (ext ++ [c2])
    else getExtQuoted fuel st1 (ext ++ [c])

/-- `getExtendedSectionKey`: skip spaces up to the opening quote (a newline
anywhere fails), then read the quoted name and require the closing `]`.
`c0` is the whitespace byte that ended the section name. -/
def getExtendedSectionKey (fuel : Nat) (c0 : Nat) (st : CP) :
    Except GErr (List Nat × CP) :=
  match fuel with
  | 0 => .error .outOfFuel
  | fuel + 1 =>
    if c0 = 10 then .error .sectionNewLine
    else
      let (c, st1) := nextChar st
      if gcIsSpace c then getExtendedSectionKey fuel c st1
      else if c ≠ 34 then .error .missingStartQuote
      else getExtQuoted (st1.bytes.length + 2) st1 []

/-- `getSectionFullName`: accumulate the case-folded section name until the
closing `]`; a whitespace byte switches to the quoted-subsection reader;
EOF fails; any byte that is neither a key character nor `.` fails. -/
def getSectionFullName (fuel : Nat) (st : CP) (name : List Nat) :
    Except GErr (List Nat × List Nat × CP) :=
  match fuel with
  | 0 => .error .outOfFuel
  | fuel + 1 =>
    let (c, st1) := nextChar st
    if st1.eof then .error .unexpectedEOF
    else if c = 93 then .ok (name, [], st1)
    else if gcIsSpace c then
      (getExtendedSectionKey (st1.bytes.length + 2) c st1).map
        fun (ext, st2) => (name, ext, st2)
    else if ¬ gcIsKeyChar c ∧ c ≠ 46 then .error .invalidSectionChar
    else getSectionFullName fuel st1 (name ++ [gcLower c])

/-- `parseValue`: read the value to end of line, collapsing unquoted
whitespace runs to single spaces (re-inserted only when more non-space
content follows), stripping `#`/`;` comments outside quotes, toggling
quoting on `"`, and folding the recognized escape sequences; a newline
inside a quote fails, as does an unknown escape. -/
def parseValue (fuel : Nat) (st : CP) (quote comment : Bool) (space : Nat)
    (value : List Nat) : Except GErr (List Nat × CP) :=
  match fuel with
  | 0 => .error .outOfFuel
  | fuel + 1 =>
    let (c, st1) := nextChar st
    if c = 10 then
      if quote then .error .unfinishedQuote else .ok (value, st1)
    else if comment then parseValue fuel st1 quote comment space value
    else if gcIsSpace c ∧ ¬ quote then
      parseValue fuel st1 quote comment
        (if value.length > 0 then space + 1 else space) value
    else if (c = 59 ∨ c = 35) ∧ ¬ quote then
      parseValue fuel st1 quote true space value
    else
      let value := value ++ List.replicate space 32
      if c = 92 then
        let (c2, st2) := nextChar st1
        if c2 = 10 then parseValue fuel st2 quote comment 0 value
        else if c2 = 116 then parseValue fuel st2 quote comment 0 (value ++ [9])
        else if c2 = 98 then parseValue fuel st2 quote comment 0 (value ++ [8])
        else if c2 = 110 then parseValue fuel st2 quote comment 0 (value ++ [10])
        else if c2 = 92 then parseValue fuel st2 quote comment 0 (value ++ [92])
        else if c2 = 34 then parseValue fuel st2 quote comment 0 (value ++ [34])
        else .error .invalidEscape
      else if c = 34 then parseValue fuel st1 (¬ quote) comment 0 value
      else parseValue fuel st1 quote comment 0 (value ++ [c])

/-- The key-name loop of `getValue`: extend the key with case-folded key
characters until a non-key byte or EOF; returns that byte and the state. -/
def getValueName (fuel : Nat) (st : CP) (name : List Nat) :
    Except GErr (List Nat × Nat × CP) :=
  match fuel with
  | 0 => .error .outOfFuel
  | fuel + 1 =>
    let (c, st1) := nextChar st
    if st1.eof then .ok (name, c, st1)
    else if ¬ gcIsKeyChar c then .ok (name, c, st1)
    else getValueName fuel st1 (name ++ [gcLower c])

/-- The space-skipping loop between the key name and `=`. -/
def getValueSkipWs (fuel : Nat) (c : Nat) (st : CP) : Nat × CP :=
  match fuel with
  | 0 => (c, st)
  | fuel + 1 =>
    if c = 32 ∨ c = 9 then
      let (c2, st1) := nextChar st
      getValueSkipWs fuel c2 st1
    else (c, st)

/-- `getValue`: finish reading the key name, skip blanks, and either accept
a bare key at end of line (empty value) or require `=` followed by a
parsed value. -/
def getValue (st : CP) (name : List Nat) : Except GErr (List Nat × List Nat × CP) := do
  let (name, c, st1) ← getValueName (st.bytes.length + 2) st name
  let (c, st2) := getValueSkipWs (st1.bytes.length + 2) c st1
  if c ≠ 10 then
    if c ≠ 61 then .error .invalidKeyChar
    else
      let (v, st3) ← parseValue (st2.bytes.length + 2) st2 false false 0 []
      .ok (name, v, st3)
  else .ok (name, [], st2)

/-- `Section`: name, `entries` map, and `subsections` map. Go's
`map[string]string` / `map[string]*Section` are embedded as keyed
association lists (first occurrence wins, replacement in place). -/
inductive GSection where
  | mk (name : String) (entries : List (String × String))
      (subsections : List (String × GSection))

/-- The section's entries map. -/
def GSection.entries : GSection → List (String × String)
  | .mk _ es _ => es

/-- Keyed insertion into an association list (replace or append), the
update semantics of a Go map assignment. -/
def assocSet {α : Type} (m : List (String × α)) (k : String) (v : α) :
    List (String × α) :=
  match m with
  | [] => [(k, v)]
  | (k0, v0) :: rest =>
    if k0 = k then (k, v) :: rest else (k0, v0) :: assocSet rest k v

/-- Keyed lookup in an association list. -/
def assocGet {α : Type} (m : List (String × α)) (k : String) : Option α :=
  match m with
  | [] => none
  | (k0, v0) :: rest => if k0 = k then some v0 else assocGet rest k

/-- `Config.sections`. -/
abbrev GConfig := List (String × GSection)

/-- `section.entries[key] = value` on a base section. -/
def GSection.setEntry : GSection → String → String → GSection
  | .mk n es subs, k, v => .mk n (assocSet es k v) subs

/-- `section.subsections[ext] = &sub` on a base section. -/
def GSection.setSub : GSection → String → GSection → GSection
  | .mk n es subs, k, sub => .mk n es (assocSet subs k sub)

/-- Where the parser's `section` pointer currently points: a base section
or one of its quoted subsections, identified by name. -/
inductive SecPtr where
  | base (s : String)
  | sub (s ext : String)
deriving DecidableEq

/-- Processing of a parsed `[sect]` / `[sect "ext"]` header: reuse or
create the base section, store it back, and for a quoted form install a
fresh subsection (replacing any previous one of that name) and point the
parser at it. -/
def applyHeader (cnf : GConfig) (sect ext : String) : GConfig × SecPtr :=
  let base := (assocGet cnf sect).getD (.mk sect [] [])
  if ext = "" then (assocSet cnf sect base, .base sect)
  else
    (assocSet cnf sect (base.setSub ext (.mk ext [] [])), .sub sect ext)

/-- `section.entries[key] = value` through the current section pointer.
(The pointed-to section always exists: headers install it on creation.) -/
def storeEntry (cnf : GConfig) (ptr : SecPtr) (k v : String) : GConfig :=
  match ptr with
  | .base s =>
    match assocGet cnf s with
    | some sec => assocSet cnf s (sec.setEntry k v)
    | none => cnf
  | .sub s ext =>
    match assocGet cnf s with
    | some sec =>
      match assocGet ((fun | GSection.mk _ _ subs => subs) sec) ext with
      | some sub => assocSet cnf s (sec.setSub ext (sub.setEntry k v))
      | none => cnf
    | none => cnf

/-- The outcome of `(*configParser).parse()`: a decoded config, a decode
error — or the run-time panic of `section.entries[key] = value` with a nil
`section` pointer, which is a crash, not an error return. -/
inductive PR where
  | ok (cnf : GConfig)
  | err (e : GErr)
  | crash

/-- The UTF-8 byte-order mark bytes checked by the leading `bomPtr` logic. -/
def utf8BOM : List Nat := [239, 187, 191]

/-- The main loop of `(*configParser).parse()`: byte-order-mark handling,
newline/EOF handling, comment skipping, `[` dispatching into the section
header reader, and key lines dispatched into `getValue`, whose result is
stored through the current section pointer — crashing when no section
header has installed one yet. `sectionPtr` is the `section` variable
(`none` is Go's nil); `bomPtr` uses `-1` as its disabled sentinel exactly
as the source does. One fuel unit per iteration; every iteration consumes
at least one input byte, so the wrapper's `length + 2` bound is never hit. -/
def parseLoop (fuel : Nat) (st : CP) (bomPtr : Int) (comment : Bool)
    (sectionPtr : Option SecPtr) (cnf : GConfig) : PR :=
  match fuel with
  | 0 => .err .outOfFuel
  | fuel + 1 =>
    let (c, st1) := nextChar st
    let bomActive := bomPtr ≠ -1 ∧ bomPtr < 3
    if bomActive ∧ c = utf8BOM.getD bomPtr.toNat 0 then
      parseLoop fuel st1 (bomPtr + 1) comment sectionPtr cnf
    else if bomActive ∧ bomPtr ≠ 0 then .err .partialBOM
    else
      -- from here `bomPtr` is (or behaves as) the `-1` sentinel
      if c = 10 then
        if st1.eof then .ok cnf
        else parseLoop fuel st1 (-1) false sectionPtr cnf
      else if comment ∨ gcIsSpace c then
        parseLoop fuel st1 (-1) comment sectionPtr cnf
      else if c = 35 ∨ c = 59 then
        parseLoop fuel st1 (-1) true sectionPtr cnf
      else if c = 91 then
        match getSectionFullName (st1.bytes.length + 2) st1 [] with
        | .error e => .err e
        | .ok (sect, ext, st2) =>
          let (cnf2, ptr) := applyHeader cnf (bytesToString sect) (bytesToString ext)
          parseLoop fuel st2 (-1) comment (some ptr) cnf2
      else if ¬ gcIsAlpha c then .err .invalidKeyChar
      else
        -- `key := name + string(c)` (`name` is always empty in `parse`,
        -- and the first key byte is not case-folded here)
        match getValue st1 [c] with
        | .error e => .err e
        | .ok (key, value, st2) =>
          match sectionPtr with
          | none => .crash
          | some ptr =>
            parseLoop fuel st2 (-1) comment sectionPtr
              (storeEntry cnf ptr (bytesToString key) (bytesToString value))

/-- `Parse(bytes)` restricted to the structured `parse()` mode: initial
state has `linenr = 1`, `bomPtr = 0`, no comment, a nil section pointer and
an empty config. -/
def parseConfig (input : List Nat) : PR :=
  parseLoop (input.length + 2) ⟨input, 1, false⟩ 0 false none []

/-- Insignificant leading input for the gitconfig parser: whitespace bytes
(carriage returns excluded, so no CRLF folding interferes) and whole
comment lines. This is the statement-side notion of "everything before the
first significant character". -/
inductive Junk : List Nat → Prop where
  | nil : Junk []
  | ws (c : Nat) (rest : List Nat) :
      c = 32 ∨ c = 9 ∨ c = 10 ∨ c = 11 ∨ c = 12 → Junk rest → Junk (c :: rest)
  | comment (c : Nat) (body rest : List Nat) : c = 35 ∨ c = 59 →
      (∀ x ∈ body, x ≠ 10 ∧ x ≠ 13) → Junk rest →
      Junk (c :: (body ++ 10 :: rest))

/-- One `parent <hex>` commit header line. -/
def parentLine (p : List Nat) : List Nat :=
  strBytes "parent " ++ p ++ [10]

/-- A commit object payload: a `tree` header line, the given `parent`
header lines in order, the blank separator line, then the message. -/
def mkCommitPayload (t : List Nat) (ps : List (List Nat)) (msg : List Nat) :
    List Nat :=
  strBytes "tree " ++ t ++ [10] ++ ps.flatMap parentLine ++ 10 :: msg

/-- Digit-or-lower-case-hex text of length 40, the hash format appearing in
commit headers. -/
def ValidHex40 (p : List Nat) : Prop :=
  p.length = 40 ∧ ∀ c ∈ p, (48 ≤ c ∧ c ≤ 57) ∨ (97 ≤ c ∧ c ≤ 102)

instance (p : List Nat) : Decidable (ValidHex40 p) := by
  unfold ValidHex40; infer_instance

deriving instance DecidableEq for Except

/-! ## Theorems -/

/-- C6: `Add` with an empty path list and `Remove` with an empty file list
return the validation error immediately, with no command constructed or
spawned (the `.error` branch carries no argument vector); with a non-empty
list no validation error is produced and the spawned command's argument
vector is built from the list. -/
theorem add_remove_empty_list_validation :
    (∀ g : Git, g.add [] = .error "no paths to add" ∧
      g.remove [] = .error "no files to remove") ∧
    (∀ (g : Git) (ps : List String), ps ≠ [] →
      g.add ps = .ok (g.newCmd ("add" :: ps)) ∧
      g.remove ps = .ok (g.newCmd (["rm", "--cached"] ++ ps))) := by
  refine ⟨fun g => ⟨rfl, rfl⟩, fun g ps h => ?_⟩
  constructor <;> simp [Git.add, Git.remove, h]

/-- Witness for C6 at a concrete handle and non-empty path list. -/
theorem add_remove_empty_list_validation_witness :
    (Git.mk "d" "w" []).add ["a"] =
        .ok ["--git-dir", "d", "--work-tree", "w", "add", "a"] ∧
      (Git.mk "d" "w" []).remove ["a"] =
        .ok ["--git-dir", "d", "--work-tree", "w", "rm", "--cached", "a"] := by
  have h := add_remove_empty_list_validation.2 (Git.mk "d" "w" []) ["a"]
    (by decide)
  exact ⟨h.1, h.2⟩

/-- C5: `sync` with no configured remote fails with no pull or push
attempted (the action trace is empty); with a remote, a failing pull only
produces a warning and the command still reads the branch from `HEAD` and
pushes it to `origin`. -/
theorem sync_requires_remote_and_pull_is_warning :
    (∀ w : SyncWorld, w.hasRemote = false →
      sync w = ([], [], .error "repo does not have a remote repo")) ∧
    (∀ (w : SyncWorld) (e b : String), w.hasRemote = true →
      w.pullErr = some e → currentBranch w.headContent = .ok b →
      (sync w).1 = [.pull, .readHead, .push "origin" b] ∧
      (sync w).2.1 = ["Warning: " ++ e] ∧ (sync w).2.2 = .ok ()) := by
  constructor
  · intro w h; simp [sync, h]
  · intro w e b hr hp hb; simp [sync, hr, hp, hb]

/-- Witness for C5: a world with a remote, a failing pull and a symbolic
`HEAD` pointing at `refs/heads/main`. -/
theorem sync_requires_remote_and_pull_is_warning_witness :
    (sync ⟨false, none, none⟩ = ([], [], .error "repo does not have a remote repo")) ∧
      (sync ⟨true, some "bad pull", some "ref: refs/heads/main\n"⟩).1 =
        [.pull, .readHead, .push "origin" "main"] := by
  refine ⟨sync_requires_remote_and_pull_is_warning.1 ⟨false, none, none⟩ rfl, ?_⟩
  exact (sync_requires_remote_and_pull_is_warning.2
    ⟨true, some "bad pull", some "ref: refs/heads/main\n"⟩ "bad pull" "main"
    rfl rfl (by decide)).1

/-- C1 (failing input): `update` invoked with the single explicit path
`a` while tracked file `b` is modified — `getUpdated` appends every
modified file to the explicit arguments, so `b` is staged although it was
not named; the update set is not restricted to the arguments. -/
theorem getUpdated_explicit_args_do_not_restrict :
    getUpdated "/home/u" ["a"] ["b"] false "/home/u" =
        ["/home/u/a", "/home/u/b"] ∧
      "/home/u/b" ∈ getUpdated "/home/u" ["a"] ["b"] false "/home/u" := by
  constructor
  · rfl
  · decide

/-- C2 (failing input): a tracked non-executable file (index mode
`0100644`, stat mode `0644`) whose size changed is reported with
destination mode `0100755`, and an executable one (stat mode `0755`) with
`0100644` — the opposite of the spec's normalization, because the source's
executable-bit switch assigns the two constants to the wrong branches. -/
theorem indexDiff_mode_normalization_is_inverted :
    ((indexDiff
        [{ ctime := ⟨0, 0⟩, mtime := ⟨5, 0⟩, dev := 1, ino := 2, uid := 3,
           gid := 4, size := 10, mode := 0o100644,
           oid := List.replicate 20 0, name := "f" }]
        (fun _ => .info { mtime := (5, 0), size := 11, mode := 0o644, sys := none })
        "wt").map (fun l => l.map fun m => (m.typ, m.Dst.Mode)) =
      .ok [(ModChanged, 0o100755)]) ∧
    ((indexDiff
        [{ ctime := ⟨0, 0⟩, mtime := ⟨5, 0⟩, dev := 1, ino := 2, uid := 3,
           gid := 4, size := 10, mode := 0o100755,
           oid := List.replicate 20 0, name := "g" }]
        (fun _ => .info { mtime := (5, 0), size := 11, mode := 0o755, sys := none })
        "wt").map (fun l => l.map fun m => (m.typ, m.Dst.Mode)) =
      .ok [(ModChanged, 0o100644)]) := by
  constructor <;> rfl

/-- `x & ^uint(7)` on a value below `2^64` clears the low three bits:
it equals `8 * (x / 8)`. -/
theorem land_mask8 (x : Nat) (h : x < 2 ^ 64) :
    x &&& 0xFFFFFFFFFFFFFFF8 = 8 * (x / 8) := by
  have hM : (0xFFFFFFFFFFFFFFF8 : Nat) = 2 ^ 3 * (2 ^ 61 - 1) := by norm_num
  have hrhs : 8 * (x / 8) = 2 ^ 3 * (x >>> 3) := by
    rw [Nat.shiftRight_eq_div_pow]
    norm_num
  apply Nat.eq_of_testBit_eq
  intro i
  rw [hrhs, Nat.testBit_and, hM, Nat.testBit_mul_pow_two, Nat.testBit_mul_pow_two]
  rcases lt_or_ge i 3 with h3 | h3
  · have : ¬ (i ≥ 3) := by omega
    simp [this]
  · have hd : decide (i ≥ 3) = true := decide_eq_true h3
    simp only [hd, Bool.true_and, Nat.testBit_two_pow_sub_one,
      Nat.testBit_shiftRight]
    have hi : 3 + (i - 3) = i := by omega
    rw [hi]
    rcases lt_or_ge i 64 with h64 | h64
    · have : i - 3 < 61 := by omega
      simp [this]
    · have hx : Nat.testBit x i = false :=
        Nat.testBit_lt_two_pow
          (lt_of_lt_of_le h (Nat.pow_le_pow_right (by norm_num) h64))
      have : ¬ (i - 3 < 61) := by omega
      simp [hx, this]

/-- C4: the consumed on-disk entry length is the unpadded length (fixed
offset + hash size + one or two flag words + name length) plus 8, rounded
down to a multiple of 8 — equivalently rounded up to the *next* multiple of
8, where an already-aligned unpadded length still gains a full 8 bytes. -/
theorem cacheEntryDiskLength_alignment (flags nameLen : Nat)
    (h : nameLen < 2 ^ 32) :
    cacheEntryDiskLength flags nameLen =
        (cdlUnpadded flags nameLen + 8) - (cdlUnpadded flags nameLen + 8) % 8 ∧
      cacheEntryDiskLength flags nameLen = 8 * (cdlUnpadded flags nameLen / 8) + 8 ∧
      (cdlUnpadded flags nameLen % 8 = 0 →
        cacheEntryDiskLength flags nameLen = cdlUnpadded flags nameLen + 8) ∧
      (cdlUnpadded flags nameLen % 8 ≠ 0 →
        cacheEntryDiskLength flags nameLen =
          cdlUnpadded flags nameLen + (8 - cdlUnpadded flags nameLen % 8)) := by
  have key : cacheEntryDiskLength flags nameLen =
      8 * ((cdlUnpadded flags nameLen + 8) / 8) := by
    unfold cacheEntryDiskLength cdlUnpadded
    by_cases hb : flags &&& 0x4000 ≠ 0
    · simp only [if_pos hb]
      rw [Nat.mod_eq_of_lt (by omega), land_mask8 _ (by omega)]
      congr 1
      omega
    · simp only [if_neg hb]
      rw [Nat.mod_eq_of_lt (by omega), land_mask8 _ (by omega)]
      congr 1
      omega
  refine ⟨?_, ?_, ?_, ?_⟩ <;> rw [key] <;> omega

/-- Witness for C4 at `flags = 0`, `nameLen = 8` (unpadded length 66,
consumed length 72). -/
theorem cacheEntryDiskLength_alignment_witness :
    cacheEntryDiskLength 0 8 = (cdlUnpadded 0 8 + 8) - (cdlUnpadded 0 8 + 8) % 8 ∧
      cacheEntryDiskLength 0 8 = 72 := by
  refine ⟨(cacheEntryDiskLength_alignment 0 8 (by norm_num)).1, by decide⟩

/-- The diagonal of the Levenshtein table over identical inputs is zero
(with any sufficient fuel). -/
theorem levD_diag (s : List Nat) : ∀ i f, i ≤ f → levD s s (f + 1) i i = 0 := by
  intro i
  induction i with
  | zero => intro f _; rfl
  | succ k ih =>
    intro f hf
    obtain ⟨f0, rfl⟩ : ∃ f0, f = f0 + 1 := ⟨f - 1, by omega⟩
    show (if s.getD k 0 = s.getD k 0 then levD s s (f0 + 1) k k
      else Nat.min (Nat.min (levD s s (f0 + 1) k (k + 1))
        (levD s s (f0 + 1) (k + 1) k)) (levD s s (f0 + 1) k k) + 1) = 0
    rw [if_pos rfl]
    exact ih f0 (by omega)

/-- C9: the edit distance from a string to itself is 0; the distance from
`"cat"` to `"cats"` is 1; and the ranking produced by `NewRankedFiles` is
sorted in non-decreasing distance order, so a file with strictly greater
distance never precedes one with smaller distance. -/
theorem levenshtein_and_ranking_properties :
    (∀ s : List Nat, levenshteinDist s s = 0) ∧
      levenshteinDist (strBytes "cat") (strBytes "cats") = 1 ∧
      ∀ (term : List Nat) (files : List (List Nat)),
        (NewRankedFiles term files).Pairwise (fun a b => a.Rank ≤ b.Rank) := by
  refine ⟨fun s => ?_, by decide, fun term files => ?_⟩
  · have h := levD_diag s s.length (s.length + s.length) (by omega)
    simpa [levenshteinDist] using h
  · have hs := @List.sorted_mergeSort RankedFile
      (fun a b : RankedFile => decide (a.Rank ≤ b.Rank))
      (fun a b c hab hbc =>
        decide_eq_true (Nat.le_trans (of_decide_eq_true hab) (of_decide_eq_true hbc)))
      (fun a b => by
        rcases Nat.le_total a.Rank b.Rank with h | h <;> simp [h])
      (files.map fun f => { Name := f, Rank := levenshteinDist term f })
    exact hs.imp fun h => of_decide_eq_true h

/-- Valid-hex byte lists of even length decode: `hexPairs` succeeds and
halves the length. -/
theorem hexPairs_ok : ∀ (n : Nat) (p : List Nat), p.length ≤ n →
    (∀ c ∈ p, (48 ≤ c ∧ c ≤ 57) ∨ (97 ≤ c ∧ c ≤ 102)) → p.length % 2 = 0 →
    ∃ d, hexPairs p = some d ∧ d.length = p.length / 2 := by
  intro n
  induction n with
  | zero =>
    intro p hlen _ _
    have : p = [] := List.length_eq_zero.mp (by omega)
    exact ⟨[], by simp [this, hexPairs]⟩
  | succ n ih =>
    intro p hlen hv hev
    match p with
    | [] => exact ⟨[], by simp [hexPairs]⟩
    | [a] => simp at hev
    | a :: b :: rest =>
      have hva : (hexDigitVal a).isSome := by
        unfold hexDigitVal
        rcases hv a (by simp) with h | h
        · rw [if_pos h]; simp
        · rw [if_neg (by omega), if_pos h]; simp
      have hvb : (hexDigitVal b).isSome := by
        unfold hexDigitVal
        rcases hv b (by simp) with h | h
        · rw [if_pos h]; simp
        · rw [if_neg (by omega), if_pos h]; simp
      obtain ⟨x, hx⟩ := Option.isSome_iff_exists.mp hva
      obtain ⟨y, hy⟩ := Option.isSome_iff_exists.mp hvb
      obtain ⟨d, hd, hdl⟩ := ih rest (by simp at hlen ⊢; omega)
        (fun c hc => hv c (by simp [hc])) (by simp at hev ⊢; omega)
      refine ⟨(x * 16 + y) :: d, ?_, ?_⟩
      · simp [hexPairs, hx, hy, hd]
      · simp [hdl]; omega

/-- `ReadBytes('\n')` on a line (no interior newline) followed by the rest
returns the line including its newline. -/
theorem readBytesNewline_append (xs rest : List Nat) (h : ∀ x ∈ xs, x ≠ 10) :
    readBytesNewline (xs ++ 10 :: rest) = some (xs ++ [10], rest) := by
  unfold readBytesNewline
  have h1 : (xs ++ 10 :: rest).findIdx? (· = 10) = some xs.length := by
    rw [List.findIdx?_append]
    have hx : xs.findIdx? (· = 10) = none := by
      rw [List.findIdx?_eq_none_iff]
      intro x hxm
      simpa using h x hxm
    simp [hx, List.findIdx?_cons]
  rw [h1]
  show some ((xs ++ 10 :: rest).take (xs.length + 1),
      (xs ++ 10 :: rest).drop (xs.length + 1)) = some (xs ++ [10], rest)
  have e2 : xs ++ 10 :: rest = (xs ++ [10]) ++ rest := by simp
  rw [e2, show xs.length + 1 = (xs ++ [10]).length from by simp,
    List.take_left, List.drop_left]

/-- `SplitN(line, " ", 2)` on a keyword (no interior space) followed by a
space and the argument. -/
theorem splitN2_append (kw arg : List Nat) (h : ∀ x ∈ kw, x ≠ 32) :
    splitN2 (kw ++ 32 :: arg) = [kw, arg] := by
  unfold splitN2
  have h1 : (kw ++ 32 :: arg).findIdx? (· = 32) = some kw.length := by
    rw [List.findIdx?_append]
    have hx : kw.findIdx? (· = 32) = none := by
      rw [List.findIdx?_eq_none_iff]
      intro x hxm
      simpa using h x hxm
    simp [hx, List.findIdx?_cons]
  rw [h1]
  show [(kw ++ 32 :: arg).take kw.length, (kw ++ 32 :: arg).drop (kw.length + 1)]
    = [kw, arg]
  have e2 : kw ++ 32 :: arg = (kw ++ [32]) ++ arg := by simp
  rw [List.take_left, e2, show kw.length + 1 = (kw ++ [32]).length from by simp,
    List.drop_left]

/-- Trimming a newline-terminated line drops exactly the newline. -/
theorem lineTrim_concat (xs : List Nat) : lineTrim (xs ++ [10]) = xs := by
  unfold lineTrim
  rw [List.getLast?_concat, if_pos rfl, List.dropLast_concat]

/-- One loop iteration of `parseCommitLoop` on a `<kw> <arg>` header line. -/
theorem parseCommitLoop_header (f : Nat) (c : Commit) (kw arg rest : List Nat)
    (hk32 : ∀ x ∈ kw, x ≠ 32) (hk10 : ∀ x ∈ kw, x ≠ 10)
    (ha10 : ∀ x ∈ arg, x ≠ 10) :
    parseCommitLoop (f + 1) c (kw ++ 32 :: (arg ++ 10 :: rest)) =
      match commitHeaderStep (bytesToString kw) arg c with
      | .error e => .error e
      | .ok c2 => parseCommitLoop f c2 rest := by
  have hline : ∀ x ∈ kw ++ 32 :: arg, x ≠ 10 := by
    intro x hx
    rcases List.mem_append.mp hx with h | h
    · exact hk10 x h
    · rcases List.mem_cons.mp h with rfl | h
      · decide
      · exact ha10 x h
  have e1 : kw ++ 32 :: (arg ++ 10 :: rest) = (kw ++ 32 :: arg) ++ 10 :: rest := by
    simp
  rw [show parseCommitLoop (f + 1) c (kw ++ 32 :: (arg ++ 10 :: rest)) =
      match readBytesNewline (kw ++ 32 :: (arg ++ 10 :: rest)) with
      | none => .error "EOF"
      | some (line0, rest) =>
        let parts := splitN2 (lineTrim line0)
        if parts.length = 1 ∧ parts.headD [] = [] then .ok (c, rest)
        else
          match commitHeaderStep (bytesToString (parts.headD []))
              (parts.getD 1 []) c with
          | .error e => .error e
          | .ok c2 => parseCommitLoop f c2 rest from rfl]
  rw [e1, readBytesNewline_append _ _ hline]
  show (let parts := splitN2 (lineTrim ((kw ++ 32 :: arg) ++ [10]))
    if parts.length = 1 ∧ parts.headD [] = [] then Except.ok (c, rest)
    else
      match commitHeaderStep (bytesToString (parts.headD []))
          (parts.getD 1 []) c with
      | .error e => .error e
      | .ok c2 => parseCommitLoop f c2 rest) = _
  rw [lineTrim_concat, splitN2_append _ _ hk32]
  simp

/-- One loop iteration of `parseCommitLoop` on the blank separator line. -/
theorem parseCommitLoop_blank (f : Nat) (c : Commit) (rest : List Nat) :
    parseCommitLoop (f + 1) c (10 :: rest) = .ok (c, rest) := by
  have h := readBytesNewline_append [] rest (by simp)
  simp only [List.nil_append] at h
  rw [show parseCommitLoop (f + 1) c (10 :: rest) =
      match readBytesNewline (10 :: rest) with
      | none => .error "EOF"
      | some (line0, rest) =>
        let parts := splitN2 (lineTrim line0)
        if parts.length = 1 ∧ parts.headD [] = [] then .ok (c, rest)
        else
          match commitHeaderStep (bytesToString (parts.headD []))
              (parts.getD 1 []) c with
          | .error e => .error e
          | .ok c2 => parseCommitLoop f c2 rest from rfl]
  rw [h]
  show (let parts := splitN2 (lineTrim ([] ++ [10]))
    if parts.length = 1 ∧ parts.headD [] = [] then Except.ok (c, rest)
    else
      match commitHeaderStep (bytesToString (parts.headD []))
          (parts.getD 1 []) c with
      | .error e => .error e
      | .ok c2 => parseCommitLoop f c2 rest) = _
  rw [lineTrim_concat]
  simp [splitN2]

/-- Hex hash text contains no newline and is nonempty in each byte's
range, so header-line lemmas apply. -/
theorem validHex40_no_newline {p : List Nat} (h : ValidHex40 p) :
    ∀ x ∈ p, x ≠ 10 := by
  intro x hx
  rcases h.2 x hx with h1 | h1 <;> omega

/-- Running the header loop over a block of `parent` lines followed by the
blank separator overwrites the parent hash once per line, leaving the hash
of the **last** `parent` line. -/
theorem parseCommitLoop_parents :
    ∀ (ps : List (List Nat)) (g : Nat) (c : Commit) (msg : List Nat)
      (hps : ∀ p ∈ ps, ValidHex40 p) (hne : ps ≠ [])
      (hlen : c.Parent.length = 20),
    parseCommitLoop (ps.length + g + 1) c (ps.flatMap parentLine ++ 10 :: msg) =
      .ok ({ c with Parent := (hexPairs (ps.getLast hne)).getD [] }, msg) := by
  intro ps
  induction ps with
  | nil => intro g c msg _ hne _; exact absurd rfl hne
  | cons p ps ih =>
    intro g c msg hps hne hlen
    have hpv : ValidHex40 p := hps p (by simp)
    obtain ⟨d, hd, hdl⟩ := hexPairs_ok 40 p (by rw [hpv.1]) hpv.2 (by rw [hpv.1])
    have e0 : (p :: ps).flatMap parentLine ++ 10 :: msg =
        strBytes "parent" ++ 32 :: (p ++ 10 :: (ps.flatMap parentLine ++ 10 :: msg)) := by
      rw [List.flatMap_cons]
      unfold parentLine
      rw [show strBytes "parent " = strBytes "parent" ++ [32] from by decide]
      simp
    have hfuel : (p :: ps).length + g + 1 = (ps.length + g + 1) + 1 := by
      simp
      omega
    rw [e0, hfuel, parseCommitLoop_header _ _ _ _ _ (by decide) (by decide)
      (validHex40_no_newline hpv)]
    rw [show bytesToString (strBytes "parent") = "parent" from by decide]
    rw [show commitHeaderStep "parent" p c =
        match hexPairs p with
        | some d => .ok { c with Parent := overwriteInto c.Parent d }
        | none => .error "invalid hex" from by
      unfold commitHeaderStep
      rw [if_neg (by decide), if_pos rfl]]
    rw [hd]
    have hd20 : d.length = 20 := by rw [hdl, hpv.1]
    have hover : overwriteInto c.Parent d = d := by
      unfold overwriteInto
      rw [hd20, ← hlen, List.drop_length, List.append_nil]
    show parseCommitLoop (ps.length + g + 1)
        { c with Parent := overwriteInto c.Parent d }
        (ps.flatMap parentLine ++ 10 :: msg) = _
    rw [hover]
    rcases eq_or_ne ps [] with rfl | hne2
    · simp only [List.flatMap_nil, List.nil_append, List.length_nil, Nat.zero_add]
      rw [parseCommitLoop_blank]
      rw [show ([p] : List (List Nat)).getLast hne = p from rfl, hd]
      rfl
    · rw [ih g { c with Parent := d } msg
        (fun q hq => hps q (by simp [hq])) hne2 (by simpa using hd20)]
      rw [List.getLast_cons hne2]

/-- Each `parent` line contributes at least one byte, so the parent block
is at least as long as the parent list. -/
theorem parentLine_block_length (ps : List (List Nat)) :
    ps.length ≤ (ps.flatMap parentLine).length := by
  induction ps with
  | nil => simp
  | cons p ps ih =>
    have hpl : (parentLine p).length = 8 + p.length := by
      unfold parentLine
      simp [show (strBytes "parent ").length = 7 from by decide]
      omega
    simp only [List.flatMap_cons, List.length_append, List.length_cons, hpl]
    omega

/-- C3 (amended): for every commit payload whose headers are a `tree` line
followed by one or more `parent` lines, the decoded `Parent` field is the
hex-decoded hash of the **last** `parent` line — each `parent` header
overwrites the previous one, so merge commits retain the last parent, and
the additional parents are not represented. -/
theorem parseCommit_retains_last_parent (t : List Nat) (ps : List (List Nat))
    (msg : List Nat) (ht : ValidHex40 t) (hps : ∀ p ∈ ps, ValidHex40 p)
    (hne : ps ≠ []) :
    (parseCommit (mkCommitPayload t ps msg)).map (·.Parent) =
      .ok ((hexPairs (ps.getLast hne)).getD []) := by
  obtain ⟨dt, hdt, hdtl⟩ := hexPairs_ok 40 t (by rw [ht.1]) ht.2 (by rw [ht.1])
  unfold parseCommit mkCommitPayload
  have e0 : strBytes "tree " ++ t ++ [10] ++ ps.flatMap parentLine ++ 10 :: msg =
      strBytes "tree" ++ 32 :: (t ++ 10 :: (ps.flatMap parentLine ++ 10 :: msg)) := by
    rw [show strBytes "tree " = strBytes "tree" ++ [32] from by decide]
    simp
  rw [e0]
  obtain ⟨g, hg⟩ : ∃ g,
      (strBytes "tree" ++ 32 :: (t ++ 10 :: (ps.flatMap parentLine ++ 10 :: msg))).length
        = ps.length + g + 1 := by
    have hb := parentLine_block_length ps
    have h4 : (strBytes "tree").length = 4 := by decide
    refine ⟨(strBytes "tree" ++ 32 :: (t ++ 10 :: (ps.flatMap parentLine ++ 10 :: msg))).length
      - ps.length - 1, ?_⟩
    simp only [List.length_append, List.length_cons, h4]
    omega
  rw [hg, parseCommitLoop_header _ _ _ _ _ (by decide) (by decide)
    (validHex40_no_newline ht)]
  rw [show bytesToString (strBytes "tree") = "tree" from by decide]
  rw [show commitHeaderStep "tree" t {} =
      match hexPairs t with
      | some d => .ok { ({} : Commit) with Tree := overwriteInto (({} : Commit)).Tree d }
      | none => .error "invalid hex" from by
    unfold commitHeaderStep
    rw [if_pos rfl]]
  rw [hdt]
  have hpar := parseCommitLoop_parents ps g
    { ({} : Commit) with Tree := overwriteInto (({} : Commit)).Tree dt }
    msg hps hne (by rfl)
  simp at hpar
  simp [hpar, Except.map]

/-- C3 (counterexample): a merge-commit payload with two `parent` lines —
40 × `a` (decoding to twenty `0xaa` bytes) then 40 × `b` (twenty `0xbb`
bytes). The decoded `Parent` is the **second** parent's bytes, not the
first's: the claim that the first parent is retained fails on this input. -/
theorem parseCommit_two_parents_counterexample :
    (parseCommit (mkCommitPayload (List.replicate 40 97)
          [List.replicate 40 97, List.replicate 40 98] (strBytes "msg"))).map
        (·.Parent) = .ok (List.replicate 20 187) ∧
      hexPairs (List.replicate 40 97) = some (List.replicate 20 170) ∧
      (List.replicate 20 187 : List Nat) ≠ List.replicate 20 170 := by
  refine ⟨by decide, by decide, by decide⟩

/-- Witness for the amended C3 theorem at the two-parent input. -/
theorem parseCommit_retains_last_parent_witness :
    (parseCommit (mkCommitPayload (List.replicate 40 97)
          [List.replicate 40 97, List.replicate 40 98] (strBytes "msg"))).map
        (·.Parent) = .ok (List.replicate 20 187) := by
  rw [parseCommit_retains_last_parent (List.replicate 40 97)
    [List.replicate 40 97, List.replicate 40 98] (strBytes "msg")
    (by decide) (by decide) (by decide)]
  decide

/-- The archive loop creates no link: its event list contains no `mklink`,
and the queue it builds is an in-order sublist of the archive's link
records. -/
theorem installLoop_no_links (env : InstallEnv) (yes : Bool) (dest : String) :
    ∀ es : List TarEntry,
      (∀ ev ∈ (installLoop env yes dest es).1,
        ∀ sym src dst, ev ≠ FsEvent.mklink sym src dst) ∧
      (installLoop env yes dest es).2.1.Sublist (entryLinks env dest es) := by
  intro es
  induction es with
  | nil => simp [installLoop, entryLinks]
  | cons e rest ih =>
    obtain ⟨ih1, ih2⟩ := ih
    rcases hrec : installLoop env yes dest rest with ⟨evs, q, r⟩
    rw [hrec] at ih1 ih2
    simp only at ih1 ih2
    have hlinks : entryLinks env dest (e :: rest) =
        (match e.typeflag with
          | TarType.symlink => [(true, entryDestPath env dest e, e.linkname)]
          | TarType.hardlink => [(false, entryDestPath env dest e, e.linkname)]
          | _ => []) ++ entryLinks env dest rest := by
      unfold entryLinks
      cases htf : e.typeflag <;> simp [htf]
    have hnolink : ∀ (x : FsEvent), (∀ sym src dst, x ≠ FsEvent.mklink sym src dst) →
        ∀ ev ∈ x :: evs, ∀ sym src dst, ev ≠ FsEvent.mklink sym src dst := by
      intro x hx ev hev sym src dst
      rcases List.mem_cons.mp hev with rfl | hev
      · exact hx sym src dst
      · exact ih1 ev hev sym src dst
    unfold installLoop
    rw [hlinks]
    by_cases hskip : ¬ yes = true ∧
        env.existsAndIsNotDir (entryDestPath env dest e) = true ∧
        ¬ env.promptYes (entryDestPath env dest e) = true
    · rw [if_pos hskip, hrec]
      exact ⟨ih1, ih2.trans (List.sublist_append_right _ _)⟩
    · rw [if_neg hskip]
      cases htf : e.typeflag
      · -- dir
        cases hm : env.mkdirOutcome (entryDestPath env dest e)
        · rw [hrec]
          exact ⟨hnolink _ (by simp), ih2.trans (List.sublist_append_right _ _)⟩
        · rw [hrec]
          exact ⟨ih1, ih2.trans (List.sublist_append_right _ _)⟩
        · simp
      · -- reg
        cases hw : env.writeOutcome (entryDestPath env dest e)
        · rw [hrec]
          exact ⟨hnolink _ (by simp), ih2.trans (List.sublist_append_right _ _)⟩
        · simp
      · -- symlink
        rw [hrec]
        exact ⟨ih1, List.Sublist.cons₂ _ ih2⟩
      · -- hardlink
        rw [hrec]
        exact ⟨ih1, List.Sublist.cons₂ _ ih2⟩
      · -- block
        simp
      · -- fifo
        simp
      · -- other
        rw [hrec]
        exact ⟨ih1, ih2.trans (List.sublist_append_right _ _)⟩

/-- The replay phase emits exactly the queued links whose creation
succeeds, in queue order. -/
theorem replayLinks_events (env : InstallEnv) : ∀ q : List LinkRec,
    (replayLinks env q).1 =
      (q.filter fun l => (env.linkOutcome l.1 l.2.1 l.2.2).isNone).map
        fun l => FsEvent.mklink l.1 l.2.1 l.2.2 := by
  intro q
  induction q with
  | nil => simp [replayLinks]
  | cons l rest ih =>
    obtain ⟨sym, src, dst⟩ := l
    unfold replayLinks
    cases h : env.linkOutcome sym src dst <;> simp [h, ih]

/-- C7: during one `install` invocation no link is created before every
regular-file and directory entry has been processed: the event trace splits
into a link-free prefix (the archive loop) followed — only when the loop
reached end-of-input — by link creations replayed from a queue that lists
the archive's link entries in archive order. -/
theorem install_defers_links (env : InstallEnv) (yes : Bool) (dest : String)
    (entries : List TarEntry) :
    ∃ (pre : List FsEvent) (q : List LinkRec),
      q.Sublist (entryLinks env dest entries) ∧
      (∀ ev ∈ pre, ∀ sym src dst, ev ≠ FsEvent.mklink sym src dst) ∧
      ((install env yes dest entries).1 = pre ∨
        (install env yes dest entries).1 =
          pre ++ (q.filter fun l => (env.linkOutcome l.1 l.2.1 l.2.2).isNone).map
            fun l => FsEvent.mklink l.1 l.2.1 l.2.2) := by
  obtain ⟨h1, h2⟩ := installLoop_no_links env yes dest entries
  refine ⟨(installLoop env yes dest entries).1,
    (installLoop env yes dest entries).2.1, h2, h1, ?_⟩
  unfold install
  cases hr : (installLoop env yes dest entries).2.2 with
  | some e => left; simp [hr]
  | none =>
    right
    rw [← replayLinks_events env (installLoop env yes dest entries).2.1]
    simp [hr]

/-- Re-inserting the exact child that a keyed lookup already finds leaves
the children map unchanged. -/
theorem insertChildList_self : ∀ (cs : List PTNode) (c : PTNode),
    cs.find? (fun x => x.name = c.name) = some c → insertChildList cs c = cs := by
  intro cs
  induction cs with
  | nil => intro c h; simp [List.find?] at h
  | cons x rest ih =>
    intro c h
    unfold insertChildList
    by_cases hx : x.name = c.name
    · rw [if_pos hx]
      have hxc : x = c := by
        rw [List.find?_cons_of_pos _ (by simp [hx])] at h
        exact Option.some.inj h
      rw [hxc]
    · rw [if_neg hx]
      rw [List.find?_cons_of_neg _ (by simp [hx])] at h
      rw [ih c h]

/-- The well-formedness invariant restricted to one child. -/
theorem PTWF.child {t c : PTNode} (h : PTWF t) (hc : c ∈ t.children) :
    c.path = t.path ++ [t.name] ∧ PTWF c := by
  cases t with
  | mk ty nm cs ph =>
    unfold PTWF at h
    exact h c hc

/-- Re-inserting the child a keyed lookup already finds is the identity on
the whole node. -/
theorem insertChild_self {t c : PTNode}
    (hf : t.children.find? (fun x => x.name = c.name) = some c) :
    t.insertChild c = t := by
  cases t with
  | mk ty nm cs ph =>
    show PTNode.mk ty nm (insertChildList cs c) ph = PTNode.mk ty nm cs ph
    simp only [PTNode.children] at hf
    rw [insertChildList_self cs c hf]

/-- C8 (amended): adding a path whose node already exists as a *childless*
leaf of a well-formed tree is a no-op — the freshly created leaf coincides
with the existing node, so the keyed re-insertion changes nothing. (When
the repeated path's node has children — some other path extends it — the
re-insertion replaces it with a fresh childless leaf instead, which is why
the unrestricted claim fails; see the counterexample.) -/
theorem expand_existing_childless_leaf :
    ∀ (parts : List String) (t n : PTNode), PTWF t →
      lookupPath t parts = some n → n.children = [] → n.typ = PTType.leaf →
      expand parts t = t := by
  intro parts
  induction parts with
  | nil =>
    intro t n _ hl _ _
    rfl
  | cons prt rest ih =>
    intro t n hwf hl hch hty
    obtain ⟨c, hc, hln⟩ : ∃ c, lookupChild t.children prt = some c ∧
        lookupPath c rest = some n := by
      unfold lookupPath at hl
      cases hfind : lookupChild t.children prt with
      | none => rw [hfind] at hl; exact absurd hl (by simp)
      | some c => rw [hfind] at hl; exact ⟨c, rfl, hl⟩
    have hcmem : c ∈ t.children := List.mem_of_find?_eq_some hc
    have hcname : c.name = prt := by
      have := List.find?_some hc
      simpa using this
    obtain ⟨hcpath, hcwf⟩ := PTWF.child hwf hcmem
    have hcfind : t.children.find? (fun x => x.name = c.name) = some c := by
      rw [hcname]
      exact hc
    rcases eq_or_ne rest [] with rfl | hrest
    · -- one component left: the inserted fresh leaf equals the existing child
      have hcn : c = n := by
        simpa [lookupPath] using hln
      have hfresh : createNode t prt PTType.leaf = c := by
        have h1 : c.typ = PTType.leaf := by rw [hcn]; exact hty
        have h2 : c.children = [] := by rw [hcn]; exact hch
        cases c with
        | mk cty cname ccs cpath =>
          simp only [PTNode.typ] at h1
          simp only [PTNode.children] at h2
          simp only [PTNode.name] at hcname
          simp only [PTNode.path] at hcpath
          unfold createNode
          rw [h1, h2, hcname, hcpath]
          rfl
      have ht1 : t.insertChild c = t := insertChild_self hcfind
      show (let t1 := t.insertChild (createNode t prt PTType.leaf)
        match lookupChild t1.children prt with
        | some child => t1.insertChild (expand [] child)
        | none =>
          let child := createNode t1 prt PTType.dir
          let t2 := t1.insertChild child
          t2.insertChild (expand [] child)) = t
      rw [hfresh, ht1]
      show (match lookupChild t.children prt with
        | some child => t.insertChild (expand [] child)
        | none =>
          let child := createNode t prt PTType.dir
          let t2 := t.insertChild child
          t2.insertChild (expand [] child)) = t
      rw [hc]
      show t.insertChild (expand [] c) = t
      rw [show expand [] c = c from rfl]
      exact ht1
    · -- walk into the existing child and recurse
      have hexp : expand rest c = c := ih c n hcwf hln hch hty
      show (let t1 := if rest = [] then
            t.insertChild (createNode t prt PTType.leaf) else t
        match lookupChild t1.children prt with
        | some child => t1.insertChild (expand rest child)
        | none =>
          let child := createNode t1 prt PTType.dir
          let t2 := t1.insertChild child
          t2.insertChild (expand rest child)) = t
      rw [if_neg hrest]
      show (match lookupChild t.children prt with
        | some child => t.insertChild (expand rest child)
        | none =>
          let child := createNode t prt PTType.dir
          let t2 := t.insertChild child
          t2.insertChild (expand rest child)) = t
      rw [hc]
      show t.insertChild (expand rest c) = t
      rw [hexp]
      exact insertChild_self hcfind

/-- C8 (counterexample): in the tree built from `a` and `a/c`, the path
`a` is present as a node of leaf type — yet re-adding `a` changes the
tree (the keyed insertion replaces the node with a fresh childless leaf,
dropping the `c` subtree). Consequently building from the list with the
repeated path differs from building from the deduplicated list. -/
theorem addPath_repeat_counterexample :
    (lookupPath (NewTree ["a", "a/c"]) ["a"]).map PTNode.typ =
        some PTType.leaf ∧
      PTNode.addPath (NewTree ["a", "a/c"]) "a" ≠ NewTree ["a", "a/c"] ∧
      NewTree ["a", "a/c", "a"] ≠ NewTree ["a", "a/c"] := by
  refine ⟨rfl, ?_, ?_⟩
  · intro h
    have h1 : (lookupPath (PTNode.addPath (NewTree ["a", "a/c"]) "a")
        ["a", "c"]).isSome = false := rfl
    rw [h] at h1
    have h2 : (lookupPath (NewTree ["a", "a/c"]) ["a", "c"]).isSome = true := rfl
    rw [h2] at h1
    exact Bool.noConfusion h1
  · intro h
    have h1 : (lookupPath (NewTree ["a", "a/c", "a"])
        ["a", "c"]).isSome = false := rfl
    rw [h] at h1
    have h2 : (lookupPath (NewTree ["a", "a/c"]) ["a", "c"]).isSome = true := rfl
    rw [h2] at h1
    exact Bool.noConfusion h1

/-- Witness for the amended C8 theorem: re-adding the childless leaf path
`a/c` to the tree built from `a` and `a/c` leaves the tree unchanged. -/
theorem expand_existing_childless_leaf_witness :
    expand ["a", "c"] (NewTree ["a", "a/c"]) = NewTree ["a", "a/c"] ∧
      PTNode.addPath (NewTree ["a", "a/c"]) "a/c" = NewTree ["a", "a/c"] := by
  have hwf : PTWF (NewTree ["a", "a/c"]) := by
    rw [show NewTree ["a", "a/c"] =
      PTNode.mk PTType.dir "/"
        [PTNode.mk PTType.leaf "a"
          [PTNode.mk PTType.leaf "c" [] ["/", "a"]] ["/"]] [] from rfl]
    unfold PTWF
    intro c hc
    simp only [List.mem_singleton] at hc
    subst hc
    refine ⟨rfl, ?_⟩
    unfold PTWF
    intro c hc
    simp only [List.mem_singleton] at hc
    subst hc
    refine ⟨rfl, ?_⟩
    unfold PTWF
    intro c hc
    simp at hc
  have h := expand_existing_childless_leaf ["a", "c"] (NewTree ["a", "a/c"])
    (PTNode.mk PTType.leaf "c" [] ["/", "a"]) hwf rfl rfl rfl
  refine ⟨h, ?_⟩
  show expand (fileSplit "a/c") (NewTree ["a", "a/c"]) = NewTree ["a", "a/c"]
  rw [show fileSplit "a/c" = ["a", "c"] from rfl]
  exact h

/-- `nextChar` on a non-empty input with no CRLF fold: return the head,
consume it, and count a newline. -/
theorem nextChar_cons (c : Nat) (bs : List Nat) (ln : Nat) (e : Bool)
    (h13 : ¬ (c = 13 ∧ bs.headD 0 = 10 ∧ bs ≠ [])) :
    nextChar ⟨c :: bs, ln, e⟩ =
      (c, ⟨bs, if c = 10 then ln + 1 else ln, e⟩) := by
  show (match (if c = 13 ∧ bs.headD 0 = 10 ∧ bs ≠ [] then (10, bs)
      else (c, c :: bs)) with
    | (c1, bs1) =>
      let ln1 := if c1 = 10 then ln + 1 else ln
      (c1, ({ bytes := bs1.tail, linenr := ln1, eof := e } : CP))) =
    (c, ⟨bs, if c = 10 then ln + 1 else ln, e⟩)
  rw [if_neg h13]
  rfl

/-- One unfolding of `parseLoop` with the pair returned by `nextChar`
accessed through projections. -/
theorem parseLoop_succ (f : Nat) (st : CP) (b : Int) (cm : Bool)
    (sp : Option SecPtr) (cnf : GConfig) :
    parseLoop (f + 1) st b cm sp cnf =
      (let c := (nextChar st).1
       let st1 := (nextChar st).2
       let bomActive := b ≠ -1 ∧ b < 3
       if bomActive ∧ c = utf8BOM.getD b.toNat 0 then
         parseLoop f st1 (b + 1) cm sp cnf
       else if bomActive ∧ b ≠ 0 then .err .partialBOM
       else if c = 10 then
         if st1.eof then .ok cnf else parseLoop f st1 (-1) false sp cnf
       else if cm ∨ gcIsSpace c then parseLoop f st1 (-1) cm sp cnf
       else if c = 35 ∨ c = 59 then parseLoop f st1 (-1) true sp cnf
       else if c = 91 then
         match getSectionFullName (st1.bytes.length + 2) st1 [] with
         | .error e => .err e
         | .ok (sect, ext, st2) =>
           let (cnf2, ptr) := applyHeader cnf (bytesToString sect) (bytesToString ext)
           parseLoop f st2 (-1) cm (some ptr) cnf2
       else if ¬ gcIsAlpha c then .err .invalidKeyChar
       else
         match getValue st1 [c] with
         | .error e => .err e
         | .ok (key, value, st2) =>
           match sp with
           | none => .crash
           | some ptr =>
             parseLoop f st2 (-1) cm sp
               (storeEntry cnf ptr (bytesToString key) (bytesToString value))) := rfl

/-- Skipping one whitespace byte (outside any comment) leaves everything
but the line counter unchanged and disables the BOM check. -/
theorem parseLoop_ws_step (f ln : Nat) (c : Nat) (bs : List Nat) (b : Int)
    (sp : Option SecPtr) (cnf : GConfig) (hb : b = 0 ∨ b = -1)
    (hc : c = 32 ∨ c = 9 ∨ c = 10 ∨ c = 11 ∨ c = 12) :
    parseLoop (f + 1) ⟨c :: bs, ln, false⟩ b false sp cnf =
      parseLoop f ⟨bs, if c = 10 then ln + 1 else ln, false⟩ (-1) false sp cnf := by
  have h13 : ¬ (c = 13 ∧ bs.headD 0 = 10 ∧ bs ≠ []) := by
    rcases hc with rfl | rfl | rfl | rfl | rfl <;> simp
  rw [parseLoop_succ, nextChar_cons _ _ _ _ h13]
  rcases hb with rfl | rfl <;>
    rcases hc with rfl | rfl | rfl | rfl | rfl <;>
      simp [gcIsSpace, utf8BOM]

/-- A `#` or `;` outside a comment turns comment mode on. -/
theorem parseLoop_comment_start_step (f ln : Nat) (c : Nat) (bs : List Nat)
    (b : Int) (sp : Option SecPtr) (cnf : GConfig) (hb : b = 0 ∨ b = -1)
    (hc : c = 35 ∨ c = 59) :
    parseLoop (f + 1) ⟨c :: bs, ln, false⟩ b false sp cnf =
      parseLoop f ⟨bs, ln, false⟩ (-1) true sp cnf := by
  have h13 : ¬ (c = 13 ∧ bs.headD 0 = 10 ∧ bs ≠ []) := by
    rcases hc with rfl | rfl <;> simp
  rw [parseLoop_succ, nextChar_cons _ _ _ _ h13]
  rcases hb with rfl | rfl <;>
    rcases hc with rfl | rfl <;>
      simp [gcIsSpace, utf8BOM]

/-- Inside a comment every byte but a newline is skipped. -/
theorem parseLoop_comment_char_step (f ln : Nat) (c : Nat) (bs : List Nat)
    (sp : Option SecPtr) (cnf : GConfig) (h10 : c ≠ 10) (h13 : c ≠ 13) :
    parseLoop (f + 1) ⟨c :: bs, ln, false⟩ (-1) true sp cnf =
      parseLoop f ⟨bs, ln, false⟩ (-1) true sp cnf := by
  have h13' : ¬ (c = 13 ∧ bs.headD 0 = 10 ∧ bs ≠ []) := by
    intro h
    exact h13 h.1
  rw [parseLoop_succ, nextChar_cons _ _ _ _ h13']
  simp [h10]

/-- A newline ends comment mode (the input being non-empty, this is not
the EOF return). -/
theorem parseLoop_comment_nl_step (f ln : Nat) (bs : List Nat)
    (sp : Option SecPtr) (cnf : GConfig) (cm : Bool) :
    parseLoop (f + 1) ⟨10 :: bs, ln, false⟩ (-1) cm sp cnf =
      parseLoop f ⟨bs, ln + 1, false⟩ (-1) false sp cnf := by
  have h13 : ¬ ((10 : Nat) = 13 ∧ bs.headD 0 = 10 ∧ bs ≠ []) := by simp
  rw [parseLoop_succ, nextChar_cons _ _ _ _ h13]
  simp

/-- The crash step: a letter beginning a key line whose `getValue` call
succeeds reaches the nil-section store and panics. -/
theorem parseLoop_key_step (f ln : Nat) (a : Nat) (r : List Nat) (b : Int)
    (cnf : GConfig) (hb : b = 0 ∨ b = -1) (ha : gcIsAlpha a)
    (hok : ∃ res, getValue ⟨r, ln, false⟩ [a] = .ok res) :
    parseLoop (f + 1) ⟨a :: r, ln, false⟩ b false none cnf = .crash := by
  obtain ⟨res, hres⟩ := hok
  obtain ⟨key, value, st2⟩ := res
  have ha' : (65 ≤ a ∧ a ≤ 90) ∨ (97 ≤ a ∧ a ≤ 122) := ha
  have h13 : ¬ (a = 13 ∧ r.headD 0 = 10 ∧ r ≠ []) := by
    intro h
    rcases ha' with h' | h' <;> omega
  have h10 : ¬ a = 10 := by rcases ha' with h' | h' <;> omega
  have h239 : ¬ a = 239 := by rcases ha' with h' | h' <;> omega
  have h35 : ¬ (a = 35 ∨ a = 59) := by rcases ha' with h' | h' <;> omega
  have h91 : ¬ a = 91 := by rcases ha' with h' | h' <;> omega
  have hsp : ¬ gcIsSpace a := by
    unfold gcIsSpace
    rcases ha' with h' | h' <;> omega
  rw [parseLoop_succ, nextChar_cons _ _ _ _ h13]
  rcases hb with rfl | rfl <;>
    simp [h10, h239, h35, h91, hsp, ha, hres, utf8BOM]

/-- Comment mode consumes the comment body and its terminating newline. -/
theorem parseLoop_comment_skip :
    ∀ (body : List Nat) (f ln : Nat) (rest : List Nat) (sp : Option SecPtr)
      (cnf : GConfig), (∀ x ∈ body, x ≠ 10 ∧ x ≠ 13) →
      parseLoop (body.length + 1 + f) ⟨body ++ 10 :: rest, ln, false⟩ (-1) true sp cnf =
        parseLoop f ⟨rest, ln + 1, false⟩ (-1) false sp cnf := by
  intro body
  induction body with
  | nil =>
    intro f ln rest sp cnf _
    rw [show ([] : List Nat).length + 1 + f = f + 1 from by simp [Nat.add_comm]]
    rw [show ([] : List Nat) ++ 10 :: rest = 10 :: rest from by simp]
    rw [parseLoop_comment_nl_step]
  | cons c body ih =>
    intro f ln rest sp cnf hbody
    have hc := hbody c (by simp)
    rw [show (c :: body).length + 1 + f = (body.length + 1 + f) + 1 from by
      simp
      omega]
    rw [show (c :: body) ++ 10 :: rest = c :: (body ++ 10 :: rest) from rfl]
    rw [parseLoop_comment_char_step _ _ _ _ _ _ hc.1 hc.2]
    exact ih (f) ln rest sp cnf (fun x hx => hbody x (by simp [hx]))

/-- Leading junk (whitespace and comment lines) is consumed, one fuel unit
per byte, landing in the plain state with the BOM pointer still in one of
its two benign values. -/
theorem parseLoop_junk_skip :
    ∀ (ws : List Nat), Junk ws → ∀ (f ln : Nat) (b : Int), b = 0 ∨ b = -1 →
      ∀ (rest : List Nat) (sp : Option SecPtr) (cnf : GConfig),
      ∃ ln2 b2, (b2 = 0 ∨ b2 = -1) ∧
        parseLoop (ws.length + f) ⟨ws ++ rest, ln, false⟩ b false sp cnf =
          parseLoop f ⟨rest, ln2, false⟩ b2 false sp cnf := by
  intro ws hj
  induction hj with
  | nil =>
    intro f ln b hb rest sp cnf
    exact ⟨ln, b, hb, by simp⟩
  | ws c rest' hc _ ih =>
    intro f ln b hb tail sp cnf
    obtain ⟨ln2, b2, hb2, hrec⟩ := ih f (if c = 10 then ln + 1 else ln) (-1)
      (Or.inr rfl) tail sp cnf
    refine ⟨ln2, b2, hb2, ?_⟩
    rw [show (c :: rest').length + f = (rest'.length + f) + 1 from by
      simp
      omega]
    rw [show (c :: rest') ++ tail = c :: (rest' ++ tail) from rfl]
    rw [parseLoop_ws_step _ _ _ _ _ _ _ hb hc]
    exact hrec
  | comment c body rest' hc hbody _ ih =>
    intro f ln b hb tail sp cnf
    obtain ⟨ln2, b2, hb2, hrec⟩ := ih f (ln + 1) (-1) (Or.inr rfl) tail sp cnf
    refine ⟨ln2, b2, hb2, ?_⟩
    rw [show (c :: (body ++ 10 :: rest')).length + f =
      (body.length + 1 + (rest'.length + f)) + 1 from by
      simp
      omega]
    rw [show (c :: (body ++ 10 :: rest')) ++ tail =
      c :: (body ++ 10 :: (rest' ++ tail)) from by simp]
    rw [parseLoop_comment_start_step _ _ _ _ _ _ _ hb hc]
    rw [parseLoop_comment_skip body _ _ _ _ _ hbody]
    exact hrec

/-- Once a section header has been seen, the section pointer is never nil
again: no continuation of the loop can reach the crash. -/
theorem parseLoop_some_section_no_crash :
    ∀ (fuel : Nat) (st : CP) (b : Int) (cm : Bool) (ptr : SecPtr)
      (cnf : GConfig), parseLoop fuel st b cm (some ptr) cnf ≠ PR.crash := by
  intro fuel
  induction fuel with
  | zero =>
    intro st b cm ptr cnf
    simp [parseLoop]
  | succ f ih =>
    intro st b cm ptr cnf
    rw [parseLoop_succ]
    show (if ((b ≠ -1 ∧ b < 3) ∧ (nextChar st).1 = utf8BOM.getD b.toNat 0) then
        parseLoop f (nextChar st).2 (b + 1) cm (some ptr) cnf
      else if (b ≠ -1 ∧ b < 3) ∧ b ≠ 0 then .err .partialBOM
      else if (nextChar st).1 = 10 then
        if (nextChar st).2.eof then .ok cnf
        else parseLoop f (nextChar st).2 (-1) false (some ptr) cnf
      else if cm ∨ gcIsSpace (nextChar st).1 then
        parseLoop f (nextChar st).2 (-1) cm (some ptr) cnf
      else if (nextChar st).1 = 35 ∨ (nextChar st).1 = 59 then
        parseLoop f (nextChar st).2 (-1) true (some ptr) cnf
      else if (nextChar st).1 = 91 then
        match getSectionFullName ((nextChar st).2.bytes.length + 2) (nextChar st).2 [] with
        | .error e => .err e
        | .ok (sect, ext, st2) =>
          let (cnf2, ptr2) := applyHeader cnf (bytesToString sect) (bytesToString ext)
          parseLoop f st2 (-1) cm (some ptr2) cnf2
      else if ¬ gcIsAlpha (nextChar st).1 then .err .invalidKeyChar
      else
        match getValue (nextChar st).2 [(nextChar st).1] with
        | .error e => .err e
        | .ok (key, value, st2) =>
          parseLoop f st2 (-1) cm (some ptr)
            (storeEntry cnf ptr (bytesToString key) (bytesToString value)))
      ≠ PR.crash
    by_cases h1 : (b ≠ -1 ∧ b < 3) ∧ (nextChar st).1 = utf8BOM.getD b.toNat 0
    · rw [if_pos h1]; exact ih _ _ _ _ _
    · rw [if_neg h1]
      by_cases h2 : (b ≠ -1 ∧ b < 3) ∧ b ≠ 0
      · rw [if_pos h2]; simp
      · rw [if_neg h2]
        by_cases h3 : (nextChar st).1 = 10
        · rw [if_pos h3]
          by_cases h4 : (nextChar st).2.eof = true
          · rw [if_pos h4]; simp
          · rw [if_neg h4]; exact ih _ _ _ _ _
        · rw [if_neg h3]
          by_cases h5 : cm = true ∨ gcIsSpace (nextChar st).1
          · rw [if_pos h5]; exact ih _ _ _ _ _
          · rw [if_neg h5]
            by_cases h6 : (nextChar st).1 = 35 ∨ (nextChar st).1 = 59
            · rw [if_pos h6]; exact ih _ _ _ _ _
            · rw [if_neg h6]
              by_cases h7 : (nextChar st).1 = 91
              · rw [if_pos h7]
                cases hsec : getSectionFullName ((nextChar st).2.bytes.length + 2)
                    (nextChar st).2 [] with
                | error e => simp
                | ok v =>
                  obtain ⟨sect, ext, st2⟩ := v
                  rcases hap : applyHeader cnf (bytesToString sect) (bytesToString ext)
                    with ⟨cnf2, ptr2⟩
                  simp only [hap]
                  exact ih _ _ _ _ _
              · rw [if_neg h7]
                by_cases h8 : ¬ gcIsAlpha (nextChar st).1
                · rw [if_pos h8]; simp
                · rw [if_neg h8]
                  cases hv : getValue (nextChar st).2 [(nextChar st).1] with
                  | error e => simp
                  | ok v =>
                    obtain ⟨key, value, st2⟩ := v
                    exact ih _ _ _ _ _

/-- C10: the structured gitconfig parser is not total: for any input that
is junk (whitespace/comment lines) followed by a letter beginning a key
line whose key/value read succeeds, `parse` reaches
`section.entries[key] = value` with a nil `section` and crashes instead of
returning a decode error; and whenever a section header has installed a
section pointer, the crash branch is unreachable for the rest of the run. -/
theorem gitconfig_parse_nil_section_crash :
    (∀ (ws : List Nat) (a : Nat) (r : List Nat), Junk ws → gcIsAlpha a →
      (∀ ln : Nat, ∃ res, getValue ⟨r, ln, false⟩ [a] = .ok res) →
      parseConfig (ws ++ a :: r) = PR.crash) ∧
    (∀ (fuel : Nat) (st : CP) (b : Int) (cm : Bool) (ptr : SecPtr)
      (cnf : GConfig), parseLoop fuel st b cm (some ptr) cnf ≠ PR.crash) := by
  refine ⟨?_, parseLoop_some_section_no_crash⟩
  intro ws a r hj ha hok
  unfold parseConfig
  rw [show (ws ++ a :: r).length + 2 = ws.length + (r.length + 2 + 1) from by
    simp
    omega]
  obtain ⟨ln2, b2, hb2, hskip⟩ := parseLoop_junk_skip ws hj (r.length + 2 + 1)
    1 0 (Or.inl rfl) (a :: r) none []
  rw [hskip]
  exact parseLoop_key_step (r.length + 2) ln2 a r b2 [] hb2 ha (hok ln2)

/-- Witness for C10: the input `" k = v\n"` (one space of junk, then the
key line `k = v`) crashes, and a run whose section pointer is set cannot
crash. -/
theorem gitconfig_parse_nil_section_crash_witness :
    parseConfig (strBytes " k = v\n") = PR.crash ∧
      parseLoop 5 ⟨strBytes "x", 1, false⟩ (-1) false
        (some (SecPtr.base "core")) [] ≠ PR.crash := by
  constructor
  · have h := gitconfig_parse_nil_section_crash.1 [32] 107
      (strBytes " = v\n")
      (Junk.ws 32 [] (Or.inl rfl) Junk.nil)
      (by decide)
      (fun ln => ⟨([107], [118], ⟨[], ln + 1, false⟩), rfl⟩)
    exact h
  · exact gitconfig_parse_nil_section_crash.2 5 ⟨strBytes "x", 1, false⟩
      (-1) false (SecPtr.base "core") []
